import Mathlib

/-!
Verification development for the search-space enumerator of `code/datastructures.py`
(complete enumeration of the constrained partition lattice of a small connected graph).

The Python source is shallowly embedded as follows.

* A cluster label (`fset`, a `frozenset` of original node identifiers) becomes
  `Label := Finset ℕ`.  The hand-written comparison `fset.__lt__` becomes `fsetLt`.
* A `networkx.Graph` over labels becomes `NxGraph`: a finite vertex set and a finite
  set of undirected edges.  networkx treats an edge as an unordered pair; we store
  each edge as the pair sorted by `fsetLt` (the same normalisation Python performs
  with `sorted(edge)`), so that `Finset` equality of edge sets coincides with
  networkx's unordered edge-set equality.
* `SearchSpaceNode` wraps such a graph.  Its Python `__eq__`/`__hash__` look at the
  edge set only; `pyEq`/`nodeHashKey` mirror this.
* A Python `set` of `SearchSpaceNode`s has one element per distinct edge set, so the
  size of such a set is modelled by `pyCount` (the number of distinct edge sets).
* `SearchSpaceLevel` / `SearchSpace` are records of the objects' mutable attributes;
  methods that can `raise` return `Except String`.
-/

/-- Cluster labels: the Lean counterpart of the `fset` values used as graph nodes. -/
abbrev Label := Finset ℕ

/-- The sorted list of members of a label (Python `sorted(self)`).  Implemented
with a structurally recursive insertion sort so that the kernel can evaluate it
on concrete inputs; it agrees with `Finset.sort` (below). -/
def msortLe (s : Multiset ℕ) : List ℕ :=
  Quot.liftOn s (fun l => List.insertionSort (· ≤ ·) l)
    (fun l₁ l₂ h =>
      List.eq_of_perm_of_sorted
        ((List.perm_insertionSort _ l₁).trans (h.trans (List.perm_insertionSort _ l₂).symm))
        (List.sorted_insertionSort _ l₁) (List.sorted_insertionSort _ l₂))

theorem msortLe_coe (s : Multiset ℕ) : (msortLe s : Multiset ℕ) = s := by
  induction s using Quotient.inductionOn with
  | h l => exact Quot.sound (List.perm_insertionSort _ l)

theorem msortLe_sorted (s : Multiset ℕ) : List.Sorted (· ≤ ·) (msortLe s) := by
  induction s using Quotient.inductionOn with
  | h l => exact List.sorted_insertionSort _ l

def sortedList (x : Label) : List ℕ := msortLe x.val

theorem sortedList_eq_sort (x : Label) : sortedList x = x.sort (· ≤ ·) :=
  List.eq_of_perm_of_sorted
    (Multiset.coe_eq_coe.mp ((msortLe_coe x.val).trans (Finset.sort_eq (· ≤ ·) x).symm))
    (msortLe_sorted x.val) (Finset.sort_sorted _ _)

/-- The inner loop of `fset.__lt__`: lexicographic comparison of two sorted member
lists where a strict prefix is smaller (the explicit `len` comparisons of the
source). -/
def lexLtB : List ℕ → List ℕ → Bool
  | [], [] => false
  | [], _ :: _ => true
  | _ :: _, [] => false
  | a :: xs, b :: ys => if a < b then true else if b < a then false else lexLtB xs ys

/-- `fset.__lt__`: first compare the minima, on ties compare the sorted member
lists lexicographically.  Python's `min` raises on an empty set; we use
`Finset.min` (which returns `⊤` for `∅`), so on the empty set — never produced by
the program, whose labels are nonempty — the comparison is junk rather than an
exception. -/
def fsetLt (x y : Label) : Bool :=
  if x.min < y.min then true
  else if y.min < x.min then false
  else lexLtB (sortedList x) (sortedList y)

theorem lexLtB_irrefl : ∀ l : List ℕ, lexLtB l l = false
  | [] => rfl
  | a :: xs => by simp [lexLtB, lexLtB_irrefl xs]

theorem lexLtB_asymm : ∀ {l₁ l₂ : List ℕ}, lexLtB l₁ l₂ = true → lexLtB l₂ l₁ = false
  | [], [], h => by simp [lexLtB] at h
  | [], _ :: _, _ => rfl
  | _ :: _, [], h => by simp [lexLtB] at h
  | a :: xs, b :: ys, h => by
    by_cases hab : a < b
    · simp [lexLtB, hab, Nat.not_lt_of_lt hab]
    · by_cases hba : b < a
      · simp [lexLtB, hab, hba] at h
      · have h' : lexLtB xs ys = true := by simpa [lexLtB, hab, hba] using h
        simp [lexLtB, hab, hba, lexLtB_asymm h']

theorem lexLtB_trans :
    ∀ {l₁ l₂ l₃ : List ℕ}, lexLtB l₁ l₂ = true → lexLtB l₂ l₃ = true → lexLtB l₁ l₃ = true
  | [], [], _, h, _ => by simp [lexLtB] at h
  | [], _ :: _, [], _, h => by simp [lexLtB] at h
  | [], _ :: _, _ :: _, _, _ => rfl
  | _ :: _, [], _, h, _ => by simp [lexLtB] at h
  | _ :: _, _ :: _, [], _, h => by simp [lexLtB] at h
  | a :: xs, b :: ys, c :: zs, h₁, h₂ => by
    by_cases hab : a < b
    · have hbc : b ≤ c := by
        by_cases h' : b < c
        · exact Nat.le_of_lt h'
        · by_cases h'' : c < b
          · simp [lexLtB, h', h''] at h₂
          · exact Nat.le_of_eq (Nat.le_antisymm (Nat.le_of_not_lt h'') (Nat.le_of_not_lt h'))
      have hac : a < c := Nat.lt_of_lt_of_le hab hbc
      simp [lexLtB, hac]
    · by_cases hba : b < a
      · simp [lexLtB, hab, hba] at h₁
      · have hab' : a = b := Nat.le_antisymm (Nat.le_of_not_lt hba) (Nat.le_of_not_lt hab)
        subst hab'
        have h₁' : lexLtB xs ys = true := by simpa [lexLtB, hab] using h₁
        by_cases hbc : a < c
        · simp [lexLtB, hbc]
        · by_cases hcb : c < a
          · simp [lexLtB, hbc, hcb] at h₂
          · have h₂' : lexLtB ys zs = true := by simpa [lexLtB, hbc, hcb] using h₂
            simp [lexLtB, hbc, hcb, lexLtB_trans h₁' h₂']

theorem lexLtB_total_of_ne :
    ∀ {l₁ l₂ : List ℕ}, l₁ ≠ l₂ → lexLtB l₁ l₂ = true ∨ lexLtB l₂ l₁ = true
  | [], [], h => absurd rfl h
  | [], _ :: _, _ => Or.inl rfl
  | _ :: _, [], _ => Or.inr rfl
  | a :: xs, b :: ys, h => by
    by_cases hab : a < b
    · exact Or.inl (by simp [lexLtB, hab])
    · by_cases hba : b < a
      · exact Or.inr (by simp [lexLtB, hba])
      · have hab' : a = b := Nat.le_antisymm (Nat.le_of_not_lt hba) (Nat.le_of_not_lt hab)
        subst hab'
        have hxs : xs ≠ ys := fun hc => h (by rw [hc])
        rcases lexLtB_total_of_ne hxs with h' | h'
        · exact Or.inl (by simp [lexLtB, h'])
        · exact Or.inr (by simp [lexLtB, h'])

/-- `lexLtB` is Mathlib's lexicographic strict order on lists. -/
theorem lexLtB_iff_lex :
    ∀ {l₁ l₂ : List ℕ}, lexLtB l₁ l₂ = true ↔ List.Lex (fun a b => a < b) l₁ l₂
  | [], [] => by
    constructor
    · intro h; simp [lexLtB] at h
    · intro h; cases h
  | [], b :: ys => by
    constructor
    · intro _; exact List.Lex.nil
    · intro _; rfl
  | a :: xs, [] => by
    constructor
    · intro h; simp [lexLtB] at h
    · intro h; cases h
  | a :: xs, b :: ys => by
    constructor
    · intro h
      by_cases hab : a < b
      · exact List.Lex.rel hab
      · by_cases hba : b < a
        · simp [lexLtB, hab, hba] at h
        · have hab' : a = b := Nat.le_antisymm (Nat.le_of_not_lt hba) (Nat.le_of_not_lt hab)
          subst hab'
          have h' : lexLtB xs ys = true := by simpa [lexLtB, hab] using h
          exact List.Lex.cons (lexLtB_iff_lex.mp h')
    · intro h
      cases h with
      | rel h' => simp [lexLtB, h']
      | cons h' =>
        simp [lexLtB, Nat.lt_irrefl]
        exact lexLtB_iff_lex.mpr h'

theorem sortedList_inj {x y : Label} (h : sortedList x = sortedList y) : x = y := by
  have hx := Finset.sort_toFinset (· ≤ ·) x
  have hy := Finset.sort_toFinset (· ≤ ·) y
  rw [← hx, ← hy]
  rw [sortedList_eq_sort, sortedList_eq_sort] at h
  rw [h]

theorem sortedList_eq_nil {x : Label} : sortedList x = [] ↔ x = ∅ := by
  rw [sortedList_eq_sort]
  constructor
  · intro h
    have := Finset.sort_toFinset (· ≤ ·) x
    rw [h] at this
    simpa using this.symm
  · intro h; subst h; simp

theorem sortedList_cons_min' {x : Label} (hx : x.Nonempty) :
    ∃ xs, sortedList x = x.min' hx :: xs := by
  have hlen : 0 < (sortedList x).length := by
    rw [sortedList_eq_sort, Finset.length_sort]
    exact Finset.card_pos.mpr hx
  obtain ⟨a, xs, hcons⟩ := List.exists_cons_of_ne_nil (List.ne_nil_of_length_pos hlen)
  have hsort : x.sort (· ≤ ·) = a :: xs := by
    rw [← sortedList_eq_sort]
    exact hcons
  have hmem : a ∈ x := by
    rw [← Finset.mem_sort (α := ℕ) (· ≤ ·), hsort]
    exact List.mem_cons_self a xs
  have hle : ∀ b ∈ x, a ≤ b := by
    intro b hb
    have hbmem : b ∈ a :: xs := by
      rw [← hsort]
      exact (Finset.mem_sort (α := ℕ) (· ≤ ·)).mpr hb
    have hsorted : List.Sorted (· ≤ ·) (a :: xs) := by
      rw [← hsort]
      exact Finset.sort_sorted _ _
    rcases List.mem_cons.mp hbmem with h | h
    · exact h ▸ le_refl a
    · exact (List.sorted_cons.mp hsorted).1 b h
  have ha : a = x.min' hx :=
    le_antisymm (Finset.le_min' x hx a hle) (Finset.min'_le x a hmem)
  exact ⟨xs, by rw [hcons, ha]⟩

theorem fsetLt_eq_lexLtB {x y : Label} (hx : x.Nonempty) (hy : y.Nonempty) :
    fsetLt x y = lexLtB (sortedList x) (sortedList y) := by
  obtain ⟨xs, hxs⟩ := sortedList_cons_min' hx
  obtain ⟨ys, hys⟩ := sortedList_cons_min' hy
  have hxm : x.min = (x.min' hx : WithTop ℕ) := (Finset.coe_min' hx).symm
  have hym : y.min = (y.min' hy : WithTop ℕ) := (Finset.coe_min' hy).symm
  unfold fsetLt
  rw [hxm, hym, hxs, hys]
  rcases lt_trichotomy (x.min' hx) (y.min' hy) with h | h | h
  · simp [lexLtB, h, WithTop.coe_lt_coe, not_lt_of_lt h]
  · simp [lexLtB, h, lt_irrefl]
  · simp [lexLtB, h, WithTop.coe_lt_coe, not_lt_of_lt h, Nat.lt_asymm h]

theorem fsetLt_irrefl (x : Label) : fsetLt x x = false := by
  unfold fsetLt
  simp [lexLtB_irrefl]

theorem fsetLt_asymm {x y : Label} (h : fsetLt x y = true) : fsetLt y x = false := by
  unfold fsetLt at h ⊢
  rcases lt_trichotomy x.min y.min with hm | hm | hm
  · simp [hm, not_lt_of_lt hm]
  · simp [hm, lt_irrefl] at h ⊢
    exact lexLtB_asymm h
  · simp [hm, not_lt_of_lt hm] at h

theorem fsetLt_trans {x y z : Label} (h₁ : fsetLt x y = true) (h₂ : fsetLt y z = true) :
    fsetLt x z = true := by
  unfold fsetLt at h₁ h₂ ⊢
  rcases lt_trichotomy x.min y.min with hm | hm | hm
  · rcases lt_trichotomy y.min z.min with hm' | hm' | hm'
    · simp [lt_trans hm hm']
    · simp [hm' ▸ hm]
    · simp [hm', not_lt_of_lt hm'] at h₂
  · rcases lt_trichotomy y.min z.min with hm' | hm' | hm'
    · simp [hm ▸ hm']
    · have h₁' : lexLtB (sortedList x) (sortedList y) = true := by
        simpa [hm, lt_irrefl] using h₁
      have h₂' : lexLtB (sortedList y) (sortedList z) = true := by
        simpa [hm', lt_irrefl] using h₂
      simp [hm ▸ hm', lt_irrefl, lexLtB_trans h₁' h₂']
    · simp [hm', not_lt_of_lt hm'] at h₂
  · simp [hm, not_lt_of_lt hm] at h₁

theorem fsetLt_total_of_ne {x y : Label} (h : x ≠ y) :
    fsetLt x y = true ∨ fsetLt y x = true := by
  unfold fsetLt
  rcases lt_trichotomy x.min y.min with hm | hm | hm
  · left; simp [hm]
  · have hs : sortedList x ≠ sortedList y := fun hc => h (sortedList_inj hc)
    rcases lexLtB_total_of_ne hs with h' | h'
    · left; simp [hm, lt_irrefl, h']
    · right; simp [hm, lt_irrefl, h']
  · right; simp [hm]

/-- Python's `sorted([s, t])` on two labels, used both by `SearchSpaceNode.__init__`
(`s, t = sorted(edge)`) and by `__hash__` (`tuple(sorted(e))`): the two endpoints of
an undirected edge in the canonical order.  We store every edge in this normalised
form, so that `Finset` equality of edge sets is networkx's unordered equality. -/
def normPair (a b : Label) : Label × Label := if fsetLt b a then (b, a) else (a, b)

theorem normPair_comm (a b : Label) : normPair a b = normPair b a := by
  by_cases hab : a = b
  · rw [hab]
  · unfold normPair
    rcases fsetLt_total_of_ne hab with h | h
    · simp [h, fsetLt_asymm h]
    · simp [h, fsetLt_asymm h]

theorem normPair_idem (a b : Label) :
    normPair (normPair a b).1 (normPair a b).2 = normPair a b := by
  unfold normPair
  by_cases h : fsetLt b a
  · simp [h, fsetLt_asymm h]
  · simp [h]

theorem normPair_fst_snd (a b : Label) :
    ((normPair a b).1 = a ∧ (normPair a b).2 = b) ∨
      ((normPair a b).1 = b ∧ (normPair a b).2 = a) := by
  unfold normPair
  by_cases h : fsetLt b a
  · right; simp [h]
  · left; simp [h]

/-- Python's tuple comparison specialised to edge pairs: compare first components
(by `fset.__lt__`) unless equal, then second components. -/
def pairLtB (p q : Label × Label) : Bool :=
  if p.1 = q.1 then (if p.2 = q.2 then false else fsetLt p.2 q.2) else fsetLt p.1 q.1

theorem pairLtB_irrefl (p : Label × Label) : pairLtB p p = false := by
  simp [pairLtB]

theorem pairLtB_asymm {p q : Label × Label} (h : pairLtB p q = true) : pairLtB q p = false := by
  unfold pairLtB at h ⊢
  by_cases h1 : p.1 = q.1
  · by_cases h2 : p.2 = q.2
    · simp [h1, h2] at h
    · have h' : fsetLt p.2 q.2 = true := by simpa [h1, h2] using h
      have h2' : q.2 ≠ p.2 := fun hc => h2 hc.symm
      simp [h1.symm, h2', fsetLt_asymm h']
  · have h' : fsetLt p.1 q.1 = true := by simpa [h1] using h
    have h1' : q.1 ≠ p.1 := fun hc => h1 hc.symm
    simp [h1', fsetLt_asymm h']

theorem pairLtB_trans {p q r : Label × Label} (h₁ : pairLtB p q = true) (h₂ : pairLtB q r = true) :
    pairLtB p r = true := by
  unfold pairLtB at h₁ h₂ ⊢
  by_cases h1 : p.1 = q.1
  · by_cases hp2 : p.2 = q.2
    · simp [h1, hp2] at h₁
    · have h₁' : fsetLt p.2 q.2 = true := by simpa [h1, hp2] using h₁
      by_cases h2 : q.1 = r.1
      · by_cases hq2 : q.2 = r.2
        · simp [h2, hq2] at h₂
        · have h₂' : fsetLt q.2 r.2 = true := by simpa [h2, hq2] using h₂
          have htr : fsetLt p.2 r.2 = true := fsetLt_trans h₁' h₂'
          have hne : p.2 ≠ r.2 := by
            intro hc
            rw [hc] at htr
            rw [fsetLt_irrefl] at htr
            exact Bool.noConfusion htr
          simp [h1.trans h2, hne, htr]
      · have h₂' : fsetLt q.1 r.1 = true := by simpa [h2] using h₂
        have hne : p.1 ≠ r.1 := fun hc => h2 (h1 ▸ hc)
        simp [hne, h1 ▸ h₂']
  · have h₁' : fsetLt p.1 q.1 = true := by simpa [h1] using h₁
    by_cases h2 : q.1 = r.1
    · have hne : p.1 ≠ r.1 := fun hc => h1 (hc.trans h2.symm)
      simp [hne, h2 ▸ h₁']
    · have h₂' : fsetLt q.1 r.1 = true := by simpa [h2] using h₂
      have htr : fsetLt p.1 r.1 = true := fsetLt_trans h₁' h₂'
      have hne : p.1 ≠ r.1 := by
        intro hc
        rw [hc] at htr
        rw [fsetLt_irrefl] at htr
        exact Bool.noConfusion htr
      simp [hne, htr]

theorem pairLtB_total_of_ne {p q : Label × Label} (h : p ≠ q) :
    pairLtB p q = true ∨ pairLtB q p = true := by
  unfold pairLtB
  by_cases h1 : p.1 = q.1
  · have h2 : p.2 ≠ q.2 := by
      intro hc
      exact h (Prod.ext_iff.mpr ⟨h1, hc⟩)
    have h2' : q.2 ≠ p.2 := fun hc => h2 hc.symm
    rcases fsetLt_total_of_ne h2 with h' | h'
    · left; simp [h1, h2, h']
    · right; simp [h1.symm, h2', h']
  · have h1' : q.1 ≠ p.1 := fun hc => h1 hc.symm
    rcases fsetLt_total_of_ne h1 with h' | h'
    · left; simp [h1, h']
    · right; simp [h1', h']

/-- The (non-strict) canonical order on edge pairs, used to model Python's
`sorted(...)` over edge tuples inside `__hash__`. -/
def PairLeR (p q : Label × Label) : Prop := pairLtB q p = false

instance : DecidableRel PairLeR := fun p q => inferInstanceAs (Decidable (pairLtB q p = false))

instance : IsTotal (Label × Label) PairLeR := by
  constructor
  intro p q
  by_cases h : pairLtB q p = true
  · right
    exact pairLtB_asymm h
  · left
    exact Bool.eq_false_iff.mpr h

instance : IsAntisymm (Label × Label) PairLeR := by
  constructor
  intro p q h₁ h₂
  by_contra hne
  rcases pairLtB_total_of_ne hne with h | h
  · rw [PairLeR, h] at h₂; exact Bool.noConfusion h₂
  · rw [PairLeR, h] at h₁; exact Bool.noConfusion h₁

instance : IsTrans (Label × Label) PairLeR := by
  constructor
  intro p q r h₁ h₂
  by_contra hc
  have hrp : pairLtB r p = true := by
    cases h : pairLtB r p
    · exact absurd h hc
    · rfl
  by_cases hpq : p = q
  · rw [PairLeR, ← hpq] at h₂; rw [h₂] at hrp; exact Bool.noConfusion hrp
  · rcases pairLtB_total_of_ne hpq with h | h
    · have := pairLtB_trans hrp h
      rw [PairLeR, this] at h₂; exact Bool.noConfusion h₂
    · rw [PairLeR, h] at h₁; exact Bool.noConfusion h₁

/-- A `networkx.Graph` over cluster labels: finite vertex set plus finite set of
undirected edges, each stored as a `normPair`-normalised pair. -/
structure NxGraph where
  nodes : Finset Label
  edges : Finset (Label × Label)

instance : DecidableEq NxGraph := fun a b =>
  decidable_of_iff (a.nodes = b.nodes ∧ a.edges = b.edges)
    (by cases a; cases b; simp)

/-- `SearchSpaceNode`: one partition of the original node set, represented as the
quotient graph whose vertices are cluster labels. -/
structure SearchSpaceNode where
  graph : NxGraph

instance : DecidableEq SearchSpaceNode := fun a b =>
  decidable_of_iff (a.graph = b.graph) (by cases a; cases b; simp)

/-- `SearchSpaceNode.__eq__`: "return self.graph.edges == other.graph.edges" —
identity by edge set only. -/
def pyEq (a b : SearchSpaceNode) : Bool := a.graph.edges = b.graph.edges

/-- The size of a Python `set` of `SearchSpaceNode`s: since `__eq__`/`__hash__`
identify nodes with equal edge sets, the set holds one element per distinct edge
set. -/
def pyCount (s : Finset SearchSpaceNode) : ℕ := (s.image (fun nd => nd.graph.edges)).card

/-- The canonical form hashed by `SearchSpaceNode.__hash__`:
`tuple(sorted(tuple(tuple(sorted(e)) for e in self._graph.edges)))`.  Our stored
edges are already endpoint-sorted, so the key is the edge set sorted by the tuple
order. -/
def nodeHashKey (nd : SearchSpaceNode) : List (Label × Label) :=
  nd.graph.edges.sort PairLeR

/-- Endpoint normalisation applied by `__hash__` to a single edge (`tuple(sorted(e))`). -/
def canonPair (p : Label × Label) : Label × Label := normPair p.1 p.2

/-- The `__hash__` canonical form computed from an arbitrary enumeration of the
edges in arbitrary orientation. -/
def hashKeyOfList (l : List (Label × Label)) : List (Label × Label) :=
  List.insertionSort PairLeR (l.map canonPair)

/-- All endpoints occurring in an edge set. -/
def endpointsOf (E : Finset (Label × Label)) : Finset Label :=
  E.biUnion (fun e => {e.1, e.2})

/-- The endpoint replacement performed for each surviving edge inside
`SearchSpaceNode.expand`:
`if a in edge: add_edge(new_node, b) elif b in edge: add_edge(a, new_node) else add_edge(a, b)`. -/
def replaceEnd (edge : Label × Label) (newNode : Label) (e : Label × Label) : Label × Label :=
  if e.1 = edge.1 ∨ e.1 = edge.2 then normPair newNode e.2
  else if e.2 = edge.1 ∨ e.2 = edge.2 then normPair e.1 newNode
  else e

/-- The child partition produced by `SearchSpaceNode.expand` for one chosen `edge`:
merge the two endpoint clusters into their union, add that node (as possibly no
edges remain), reconnect every other edge.  The final `SearchSpaceNode(new_graph)`
wrapper only re-freezes labels (identity here) and re-sorts endpoints (ours are
already normalised). -/
def SearchSpaceNode.expandOne (nd : SearchSpaceNode) (edge : Label × Label) : SearchSpaceNode :=
  let newNode := edge.1 ∪ edge.2
  let newEdges := (nd.graph.edges.erase edge).image (replaceEnd edge newNode)
  { graph := { nodes := insert newNode (endpointsOf newEdges), edges := newEdges } }

/-- The full finite family yielded by the generator `SearchSpaceNode.expand`:
one child per edge of the node. -/
def SearchSpaceNode.expandChildren (nd : SearchSpaceNode) : Finset SearchSpaceNode :=
  nd.graph.edges.image nd.expandOne

/-- The input graph handed to `SearchSpace` by the driver: a graph over raw
integer node identifiers. -/
structure InputGraph where
  nodes : Finset ℕ
  edges : Finset (ℕ × ℕ)

instance : DecidableEq InputGraph := fun a b =>
  decidable_of_iff (a.nodes = b.nodes ∧ a.edges = b.edges)
    (by cases a; cases b; simp)

/-- Well-formedness guaranteed by networkx for a simple graph: no self-loops,
and every edge endpoint is a node. -/
def InputGraph.WF (g : InputGraph) : Prop :=
  ∀ e ∈ g.edges, e.1 ≠ e.2 ∧ e.1 ∈ g.nodes ∧ e.2 ∈ g.nodes

instance (g : InputGraph) : Decidable g.WF := by
  unfold InputGraph.WF
  infer_instance

/-- `is_connected` on the input graph, in cut form: every nonempty proper subset
of the nodes is left by some edge.  (The driver only builds search spaces for
connected graphs.) -/
def InputGraph.Conn (g : InputGraph) : Prop :=
  g.nodes.Nonempty ∧
    ∀ S ∈ g.nodes.powerset, S.Nonempty → S ≠ g.nodes →
      ∃ e ∈ g.edges, (e.1 ∈ S ∧ e.2 ∈ g.nodes \ S) ∨ (e.2 ∈ S ∧ e.1 ∈ g.nodes \ S)

instance (g : InputGraph) : Decidable g.Conn := by
  unfold InputGraph.Conn
  infer_instance

/-- `freeze` of a raw integer node: the singleton cluster label. -/
def natLabel (v : ℕ) : Label := {v}

/-- The root `SearchSpaceNode(graph)` built by `SearchSpaceLevel.__init__` from the
input graph: every edge is added with its endpoints frozen to singleton labels and
sorted (`s, t = sorted(edge)`), then every node is added frozen. -/
def rootNode (g : InputGraph) : SearchSpaceNode :=
  { graph :=
      { nodes := (g.edges.biUnion (fun e => {natLabel e.1, natLabel e.2})) ∪ g.nodes.image natLabel,
        edges := g.edges.image (fun e => normPair (natLabel e.1) (natLabel e.2)) } }

/-- Whether two disjoint clusters are joined by at least one original edge. -/
def Crossing (g : InputGraph) (A B : Label) : Prop :=
  ∃ e ∈ g.edges, (e.1 ∈ A ∧ e.2 ∈ B) ∨ (e.1 ∈ B ∧ e.2 ∈ A)

instance (g : InputGraph) (A B : Label) : Decidable (Crossing g A B) := by
  unfold Crossing
  infer_instance

/-- The quotient edge set determined by a family of clusters: one normalised edge
for every pair of distinct clusters joined by an original edge. -/
def quotEdges (g : InputGraph) (V : Finset Label) : Finset (Label × Label) :=
  ((V ×ˢ V).filter (fun p => p.1 ≠ p.2 ∧ Crossing g p.1 p.2)).image
    (fun p => normPair p.1 p.2)

theorem crossing_symm {g : InputGraph} {A B : Label} (h : Crossing g A B) : Crossing g B A := by
  obtain ⟨e, he, h'⟩ := h
  exact ⟨e, he, h'.symm⟩

theorem mem_quotEdges {g : InputGraph} {V : Finset Label} {e : Label × Label} :
    e ∈ quotEdges g V ↔
      ∃ A B, A ∈ V ∧ B ∈ V ∧ A ≠ B ∧ Crossing g A B ∧ e = normPair A B := by
  unfold quotEdges
  rw [Finset.mem_image]
  constructor
  · rintro ⟨p, hp, hpe⟩
    rw [Finset.mem_filter, Finset.mem_product] at hp
    exact ⟨p.1, p.2, hp.1.1, hp.1.2, hp.2.1, hp.2.2, hpe.symm⟩
  · rintro ⟨A, B, hA, hB, hne, hcr, he⟩
    refine ⟨(A, B), ?_, he.symm⟩
    rw [Finset.mem_filter, Finset.mem_product]
    exact ⟨⟨hA, hB⟩, hne, hcr⟩

theorem quotEdges_norm {g : InputGraph} {V : Finset Label} {e : Label × Label}
    (h : e ∈ quotEdges g V) : normPair e.1 e.2 = e := by
  rw [mem_quotEdges] at h
  obtain ⟨A, B, _, _, _, _, he⟩ := h
  rw [he]
  exact normPair_idem A B

theorem quotEdges_comp_mem {g : InputGraph} {V : Finset Label} {e : Label × Label}
    (h : e ∈ quotEdges g V) : e.1 ∈ V ∧ e.2 ∈ V ∧ e.1 ≠ e.2 ∧ Crossing g e.1 e.2 := by
  rw [mem_quotEdges] at h
  obtain ⟨A, B, hA, hB, hne, hcr, he⟩ := h
  rcases normPair_fst_snd A B with ⟨h1, h2⟩ | ⟨h1, h2⟩
  · rw [he, h1, h2]
    exact ⟨hA, hB, hne, hcr⟩
  · rw [he, h1, h2]
    exact ⟨hB, hA, hne.symm, crossing_symm hcr⟩

/-- One `SearchSpaceLevel` object: its mutable attributes `_level`, `_nodes`
(`none` once compressed), `_num_partitions` (the count recorded by `compress`),
and whether `_next` has been set (level objects are always truthy, so only
presence matters). -/
structure SearchSpaceLevel where
  level : ℕ
  nodes : Option (Finset SearchSpaceNode)
  numRec : Option ℕ
  hasNext : Bool

instance : DecidableEq SearchSpaceLevel := fun a b =>
  decidable_of_iff
    (a.level = b.level ∧ a.nodes = b.nodes ∧ a.numRec = b.numRec ∧ a.hasNext = b.hasNext)
    (by cases a; cases b; simp)

instance : Inhabited SearchSpaceLevel := ⟨⟨0, none, none, false⟩⟩

/-- `SearchSpaceLevel.__init__(graph, previous)`.  Python's truthiness test
`if graph and previous` / `elif not graph and not previous` uses the graph's
`__len__`, so a zero-node graph counts as absent. -/
def levelInit (graph : Option InputGraph) (previous : Option SearchSpaceLevel) :
    Except String SearchSpaceLevel :=
  match graph, previous with
  | some g, some prev =>
      if 0 < g.nodes.card then .error "Only one of graph and previous allowed"
      else .ok { level := prev.level + 1, nodes := some ∅, numRec := none, hasNext := false }
  | some g, none =>
      if 0 < g.nodes.card then
        .ok { level := 0, nodes := some {rootNode g}, numRec := none, hasNext := false }
      else .error "Either graph or previous needed"
  | none, some prev =>
      .ok { level := prev.level + 1, nodes := some ∅, numRec := none, hasNext := false }
  | none, none => .error "Either graph or previous needed"

/-- The `num_partitions` property: the recorded count once compressed, otherwise
the size of the Python node set.  (If both attributes were unset Python would
crash on `len(None)`; that state is unreachable, we return the `∅` count.) -/
def SearchSpaceLevel.numPartitions (lv : SearchSpaceLevel) : ℕ :=
  match lv.numRec with
  | some k => k
  | none => pyCount (lv.nodes.getD ∅)

/-- `SearchSpaceLevel.expand`: fails on a level that already has a next level;
otherwise creates the next level (index + 1) holding every child of every node,
deduplicated by the Python set.  Returns the updated receiver and the new level.
(Expanding a compressed level would crash Python with a `TypeError`; modelled as
an error, never reached by `build`.) -/
def SearchSpaceLevel.expand (lv : SearchSpaceLevel) :
    Except String (SearchSpaceLevel × SearchSpaceLevel) :=
  if lv.hasNext then .error "Already expanded"
  else
    match lv.nodes with
    | none => .error "TypeError"
    | some ns =>
        .ok ({ lv with hasNext := true },
          { level := lv.level + 1,
            nodes := some (ns.biUnion SearchSpaceNode.expandChildren),
            numRec := none, hasNext := false })

/-- `SearchSpaceLevel.compress`: record the count and drop the node set;
a no-op when the node set is already gone. -/
def SearchSpaceLevel.compress (lv : SearchSpaceLevel) : SearchSpaceLevel :=
  match lv.nodes with
  | some ns => { lv with numRec := some (pyCount ns), nodes := none }
  | none => lv

/-- `SearchSpaceLevel.mean_num_edges`: raises once compressed; otherwise the mean
edge count over the distinct nodes held.  (Python would raise
`ZeroDivisionError` on an empty uncompressed level; that is a distinct error.) -/
def SearchSpaceLevel.meanNumEdges (lv : SearchSpaceLevel) : Except String ℚ :=
  match lv.nodes with
  | none => .error "The search space is compressed, computation impossible"
  | some ns =>
      if pyCount ns = 0 then .error "ZeroDivisionError"
      else .ok (((ns.image (fun nd => nd.graph.edges)).sum (fun E => (E.card : ℚ))) /
        (pyCount ns : ℚ))

/-- The node-listing branch of `SearchSpace.print_results` for one level:
`if level.nodes and print_nodes: print(...)`.  On a compressed level
`level.nodes` is `None` (falsy), so the dump is silently skipped — no error is
raised; `none` here means "nothing printed". -/
def levelNodesDump (lv : SearchSpaceLevel) (printNodes : Bool) :
    Option (Finset SearchSpaceNode) :=
  match lv.nodes with
  | none => none
  | some ns => if 0 < pyCount ns ∧ printNodes = true then some ns else none

/-- The observable output of `SearchSpace.print_results` for one level: the
summary line data (level index, exact partition count) and the optional node
dump.  `print_results` has no failure path. -/
def levelReport (lv : SearchSpaceLevel) (printNodes : Bool) :
    (ℕ × ℕ) × Option (Finset SearchSpaceNode) :=
  ((lv.level, lv.numPartitions), levelNodesDump lv printNodes)

/-- The `SearchSpace` object: the input graph, the compression flag, and the
`_levels` list (`none` before `build`). -/
structure SearchSpace where
  graph : InputGraph
  compressFlag : Bool
  levels : Option (List SearchSpaceLevel)

instance : DecidableEq SearchSpace := fun a b =>
  decidable_of_iff
    (a.graph = b.graph ∧ a.compressFlag = b.compressFlag ∧ a.levels = b.levels)
    (by cases a; cases b; simp)

/-- `SearchSpace(graph, compress)`. -/
def SearchSpace.make (g : InputGraph) (compress : Bool) : SearchSpace :=
  { graph := g, compressFlag := compress, levels := none }

/-- The `while self._levels[-1].num_partitions > 1` loop of `SearchSpace.build`:
expand the most recent level, append, compress the now second-to-last level when
enabled.  Python iterates until the condition fails; the loop strictly shrinks
the remaining work, so a fuel of `n + m + 2` is never exhausted (proved below for
the graphs the claims quantify over). -/
def buildLoop (cf : Bool) : ℕ → List SearchSpaceLevel → SearchSpaceLevel →
    List SearchSpaceLevel × SearchSpaceLevel
  | 0, done, last => (done, last)
  | fuel+1, done, last =>
    if 1 < last.numPartitions then
      match last.expand with
      | .ok (lastExp, next) =>
          buildLoop cf fuel (done ++ [if cf then lastExp.compress else lastExp]) next
      | .error _ => (done, last)
    else (done, last)

/-- `SearchSpace.build`: build level 0 from the graph, expand it, then loop;
finally compress the last level when enabled.  Note the source never guards
against a second call — it simply rebuilds `_levels` from scratch. -/
def SearchSpace.build (ss : SearchSpace) : Except String SearchSpace :=
  match levelInit (some ss.graph) none with
  | .error e => .error e
  | .ok first =>
    match first.expand with
    | .error e => .error e
    | .ok (firstExp, second) =>
      let firstDone := if ss.compressFlag then firstExp.compress else firstExp
      let fuel := ss.graph.nodes.card + ss.graph.edges.card + 2
      let res := buildLoop ss.compressFlag fuel [firstDone] second
      let lvls := res.1 ++ [if ss.compressFlag then res.2.compress else res.2]
      .ok { ss with levels := some lvls }

/-- `SearchSpace.num_levels`. -/
def SearchSpace.numLevels (ss : SearchSpace) : ℕ := (ss.levels.getD []).length

/-- `SearchSpace.num_partitions(level)` for a concrete level index. -/
def SearchSpace.numPartitionsAt (ss : SearchSpace) (i : ℕ) : ℕ :=
  ((ss.levels.getD []).getD i default).numPartitions

/-- `SearchSpace.num_partitions()` with `level=None`: the sum over all levels. -/
def SearchSpace.numPartitionsTotal (ss : SearchSpace) : ℕ :=
  ((ss.levels.getD []).map SearchSpaceLevel.numPartitions).sum

/-- Modelled from the spec: the external combinatorics collaborator's Stirling
number of the second kind `S(n, k)` (sympy `stirling`), by its standard
recurrence.  The sympy source is not part of this repository. -/
def stirlingFn : ℕ → ℕ → ℕ
  | 0, 0 => 1
  | 0, _ + 1 => 0
  | _ + 1, 0 => 0
  | n + 1, k + 1 => (k + 1) * stirlingFn n (k + 1) + stirlingFn n k

/-- Modelled from the spec: the external combinatorics collaborator's binomial
coefficient (sympy `binomial`), which is `0` for a negative lower index.  The
sympy source is not part of this repository. -/
def binomialZ (n : ℕ) (k : ℤ) : ℕ :=
  if k < 0 then 0 else Nat.choose n k.toNat

/-- `SearchSpace.num_k_partitions_ub(level) = S(n, n - level)`. -/
def SearchSpace.numKPartitionsUB (ss : SearchSpace) (level : ℕ) : ℕ :=
  stirlingFn ss.graph.nodes.card (ss.graph.nodes.card - level)

/-- `SearchSpace.num_k_partitions_lb(level) = binomial(n - 1, n - level - 1)`. -/
def SearchSpace.numKPartitionsLB (ss : SearchSpace) (level : ℕ) : ℕ :=
  binomialZ (ss.graph.nodes.card - 1) ((ss.graph.nodes.card : ℤ) - level - 1)

/-- The mathematical level-by-level enumeration: the set of all nodes produced at
level `i` before Python-set deduplication (children are a function of the parent's
edge set alone, so deduplication changes neither this set nor any count derived
from it). -/
def levelNodes (g : InputGraph) : ℕ → Finset SearchSpaceNode
  | 0 => {rootNode g}
  | i + 1 => (levelNodes g i).biUnion SearchSpaceNode.expandChildren

/-- The family `V` of cluster labels is a partition of the input graph's node set. -/
structure IsPart (g : InputGraph) (V : Finset Label) : Prop where
  blocks_nonempty : ∀ B ∈ V, B.Nonempty
  blocks_disj : ∀ B ∈ V, ∀ C ∈ V, ∀ a, a ∈ B → a ∈ C → B = C
  blocks_sub : ∀ B ∈ V, B ⊆ g.nodes
  blocks_total : ∀ a ∈ g.nodes, ∃ B ∈ V, a ∈ B

/-- The running invariant of every node in the search space of a connected graph:
its vertices partition the original node set and its edge set is exactly the
quotient edge set of that partition. -/
structure NodeInv (g : InputGraph) (nd : SearchSpaceNode) : Prop where
  part : IsPart g nd.graph.nodes
  edges_eq : nd.graph.edges = quotEdges g nd.graph.nodes

theorem crossing_mono {g : InputGraph} {A B A' B' : Label} (h : Crossing g A B)
    (hA : A ⊆ A') (hB : B ⊆ B') : Crossing g A' B' := by
  obtain ⟨e, he, h'⟩ := h
  rcases h' with ⟨h1, h2⟩ | ⟨h1, h2⟩
  · exact ⟨e, he, Or.inl ⟨hA h1, hB h2⟩⟩
  · exact ⟨e, he, Or.inr ⟨hB h1, hA h2⟩⟩

theorem crossing_union_left {g : InputGraph} {A B C : Label} (h : Crossing g (A ∪ B) C) :
    Crossing g A C ∨ Crossing g B C := by
  obtain ⟨e, he, h'⟩ := h
  rcases h' with ⟨h1, h2⟩ | ⟨h1, h2⟩
  · rcases Finset.mem_union.mp h1 with hh | hh
    · exact Or.inl ⟨e, he, Or.inl ⟨hh, h2⟩⟩
    · exact Or.inr ⟨e, he, Or.inl ⟨hh, h2⟩⟩
  · rcases Finset.mem_union.mp h2 with hh | hh
    · exact Or.inl ⟨e, he, Or.inr ⟨h1, hh⟩⟩
    · exact Or.inr ⟨e, he, Or.inr ⟨h1, hh⟩⟩

theorem mem_endpointsOf {E : Finset (Label × Label)} {B : Label} :
    B ∈ endpointsOf E ↔ ∃ e ∈ E, B = e.1 ∨ B = e.2 := by
  unfold endpointsOf
  rw [Finset.mem_biUnion]
  constructor
  · rintro ⟨e, he, hm⟩
    rcases Finset.mem_insert.mp hm with h | h
    · exact ⟨e, he, Or.inl h⟩
    · exact ⟨e, he, Or.inr (Finset.mem_singleton.mp h)⟩
  · rintro ⟨e, he, h | h⟩
    · exact ⟨e, he, Finset.mem_insert.mpr (Or.inl h)⟩
    · exact ⟨e, he, Finset.mem_insert.mpr (Or.inr (Finset.mem_singleton.mpr h))⟩

theorem endpointsOf_quotEdges_subset {g : InputGraph} {V : Finset Label} :
    endpointsOf (quotEdges g V) ⊆ V := by
  intro B hB
  rw [mem_endpointsOf] at hB
  obtain ⟨e, he, hcase⟩ := hB
  obtain ⟨h1, h2, _, _⟩ := quotEdges_comp_mem he
  rcases hcase with h | h
  · exact h ▸ h1
  · exact h ▸ h2

/-- In a connected graph, every block of a non-trivial partition is joined by an
original edge to some other block. -/
theorem exists_crossing_block {g : InputGraph} {V : Finset Label} (hconn : g.Conn)
    (hpart : IsPart g V) (hcard : 2 ≤ V.card) {B : Label} (hB : B ∈ V) :
    ∃ C ∈ V, C ≠ B ∧ Crossing g B C := by
  have hBne : B.Nonempty := hpart.blocks_nonempty B hB
  have hBsub : B ⊆ g.nodes := hpart.blocks_sub B hB
  have hBneq : B ≠ g.nodes := by
    intro hc
    obtain ⟨C, hC, hCne⟩ := Finset.exists_ne_of_one_lt_card hcard B
    obtain ⟨a, ha⟩ := hpart.blocks_nonempty C hC
    have hag : a ∈ g.nodes := hpart.blocks_sub C hC ha
    rw [← hc] at hag
    exact hCne (hpart.blocks_disj C hC B hB a ha hag)
  obtain ⟨e, he, hcase⟩ := hconn.2 B (Finset.mem_powerset.mpr hBsub) hBne hBneq
  rcases hcase with ⟨h1, h2⟩ | ⟨h1, h2⟩
  · rw [Finset.mem_sdiff] at h2
    obtain ⟨C, hC, haC⟩ := hpart.blocks_total e.2 h2.1
    refine ⟨C, hC, ?_, ⟨e, he, Or.inl ⟨h1, haC⟩⟩⟩
    intro hc
    exact h2.2 (hc ▸ haC)
  · rw [Finset.mem_sdiff] at h2
    obtain ⟨C, hC, haC⟩ := hpart.blocks_total e.1 h2.1
    refine ⟨C, hC, ?_, ⟨e, he, Or.inr ⟨haC, h1⟩⟩⟩
    intro hc
    exact h2.2 (hc ▸ haC)

theorem endpointsOf_quotEdges_eq {g : InputGraph} {V : Finset Label} (hconn : g.Conn)
    (hpart : IsPart g V) (hcard : 2 ≤ V.card) :
    endpointsOf (quotEdges g V) = V := by
  apply Finset.Subset.antisymm endpointsOf_quotEdges_subset
  intro B hB
  obtain ⟨C, hC, hCne, hcr⟩ := exists_crossing_block hconn hpart hcard hB
  have hmem : normPair B C ∈ quotEdges g V :=
    mem_quotEdges.mpr ⟨B, C, hB, hC, fun hc => hCne hc.symm, hcr, rfl⟩
  rw [mem_endpointsOf]
  rcases normPair_fst_snd B C with ⟨h1, _⟩ | ⟨_, h2⟩
  · exact ⟨normPair B C, hmem, Or.inl h1.symm⟩
  · exact ⟨normPair B C, hmem, Or.inr h2.symm⟩

theorem quotEdges_of_card_le_one {g : InputGraph} {V : Finset Label} (h : V.card ≤ 1) :
    quotEdges g V = ∅ := by
  rw [Finset.eq_empty_iff_forall_not_mem]
  intro e he
  obtain ⟨A, B, hA, hB, hne, _, _⟩ := mem_quotEdges.mp he
  exact hne (Finset.card_le_one.mp h A hA B hB)

theorem replaceEnd_fst {edge : Label × Label} {nn : Label} {e : Label × Label}
    (h : e.1 = edge.1 ∨ e.1 = edge.2) : replaceEnd edge nn e = normPair nn e.2 := by
  rw [replaceEnd, if_pos h]

theorem replaceEnd_snd {edge : Label × Label} {nn : Label} {e : Label × Label}
    (h1 : ¬(e.1 = edge.1 ∨ e.1 = edge.2)) (h2 : e.2 = edge.1 ∨ e.2 = edge.2) :
    replaceEnd edge nn e = normPair e.1 nn := by
  rw [replaceEnd, if_neg h1, if_pos h2]

theorem replaceEnd_none {edge : Label × Label} {nn : Label} {e : Label × Label}
    (h1 : ¬(e.1 = edge.1 ∨ e.1 = edge.2)) (h2 : ¬(e.2 = edge.1 ∨ e.2 = edge.2)) :
    replaceEnd edge nn e = e := by
  rw [replaceEnd, if_neg h1, if_neg h2]

/-- The merged cluster is never itself a block of the parent partition. -/
theorem union_not_mem_part {g : InputGraph} {V : Finset Label} (hpart : IsPart g V)
    {s t : Label} (hs : s ∈ V) (ht : t ∈ V) (hst : s ≠ t) : s ∪ t ∉ V := by
  intro hmem
  obtain ⟨a, ha⟩ := hpart.blocks_nonempty s hs
  have h1 : s ∪ t = s :=
    hpart.blocks_disj (s ∪ t) hmem s hs a (Finset.mem_union_left t ha) ha
  obtain ⟨b, hb⟩ := hpart.blocks_nonempty t ht
  have hbs : b ∈ s := h1 ▸ Finset.mem_union_right s hb
  exact hst (hpart.blocks_disj s hs t ht b hbs hb)

/-- Merging two blocks of a partition yields a partition. -/
theorem merge_isPart {g : InputGraph} {V : Finset Label} (hpart : IsPart g V)
    {s t : Label} (hs : s ∈ V) (ht : t ∈ V) (hst : s ≠ t) :
    IsPart g (insert (s ∪ t) (V \ {s, t})) := by
  constructor
  · intro B hB
    rcases Finset.mem_insert.mp hB with h | h
    · obtain ⟨a, ha⟩ := hpart.blocks_nonempty s hs
      exact ⟨a, h ▸ Finset.mem_union_left t ha⟩
    · exact hpart.blocks_nonempty B (Finset.mem_sdiff.mp h).1
  · intro B hB C hC a haB haC
    rcases Finset.mem_insert.mp hB with hB' | hB' <;>
      rcases Finset.mem_insert.mp hC with hC' | hC'
    · rw [hB', hC']
    · exfalso
      rw [hB'] at haB
      rw [Finset.mem_sdiff] at hC'
      rcases Finset.mem_union.mp haB with h | h
      · have := hpart.blocks_disj C hC'.1 s hs a haC h
        exact hC'.2 (by simp [this])
      · have := hpart.blocks_disj C hC'.1 t ht a haC h
        exact hC'.2 (by simp [this])
    · exfalso
      rw [hC'] at haC
      rw [Finset.mem_sdiff] at hB'
      rcases Finset.mem_union.mp haC with h | h
      · have := hpart.blocks_disj B hB'.1 s hs a haB h
        exact hB'.2 (by simp [this])
      · have := hpart.blocks_disj B hB'.1 t ht a haB h
        exact hB'.2 (by simp [this])
    · rw [Finset.mem_sdiff] at hB' hC'
      exact hpart.blocks_disj B hB'.1 C hC'.1 a haB haC
  · intro B hB
    rcases Finset.mem_insert.mp hB with h | h
    · rw [h]
      exact Finset.union_subset (hpart.blocks_sub s hs) (hpart.blocks_sub t ht)
    · exact hpart.blocks_sub B (Finset.mem_sdiff.mp h).1
  · intro a ha
    obtain ⟨B, hB, haB⟩ := hpart.blocks_total a ha
    by_cases hBs : B = s
    · exact ⟨s ∪ t, Finset.mem_insert_self _ _, Finset.mem_union_left t (hBs ▸ haB)⟩
    · by_cases hBt : B = t
      · exact ⟨s ∪ t, Finset.mem_insert_self _ _, Finset.mem_union_right s (hBt ▸ haB)⟩
      · refine ⟨B, Finset.mem_insert.mpr (Or.inr ?_), haB⟩
        rw [Finset.mem_sdiff]
        exact ⟨hB, by simp [hBs, hBt]⟩

/-- The reconnected edge set produced by `expand` for the chosen edge is exactly
the quotient edge set of the merged partition. -/
theorem expand_edges_eq_quot {g : InputGraph} {nd : SearchSpaceNode}
    {edge : Label × Label} (hinv : NodeInv g nd) (he : edge ∈ nd.graph.edges) :
    (nd.graph.edges.erase edge).image (replaceEnd edge (edge.1 ∪ edge.2)) =
      quotEdges g (insert (edge.1 ∪ edge.2) (nd.graph.nodes \ {edge.1, edge.2})) := by
  obtain ⟨s, t⟩ := edge
  have hE := hinv.edges_eq
  have hcomp := quotEdges_comp_mem (hE ▸ he)
  have hsV : s ∈ nd.graph.nodes := hcomp.1
  have htV : t ∈ nd.graph.nodes := hcomp.2.1
  have hstne : s ≠ t := hcomp.2.2.1
  have hcr : Crossing g s t := hcomp.2.2.2
  have hnorm_edge : normPair s t = (s, t) := quotEdges_norm (hE ▸ he)
  have hnn_not : s ∪ t ∉ nd.graph.nodes := union_not_mem_part hinv.part hsV htV hstne
  have hmemVt_old : ∀ {B}, B ∈ nd.graph.nodes → B ≠ s → B ≠ t →
      B ∈ insert (s ∪ t) (nd.graph.nodes \ {s, t}) := by
    intro B hB h1 h2
    rw [Finset.mem_insert]
    exact Or.inr (Finset.mem_sdiff.mpr ⟨hB, by simp [h1, h2]⟩)
  have hold_ne_nn : ∀ {B}, B ∈ nd.graph.nodes → B ≠ s ∪ t := fun hB hc => hnn_not (hc ▸ hB)
  have hdichot : ∀ {e : Label × Label}, e ∈ nd.graph.edges → e ≠ (s, t) →
      ¬((e.1 = s ∨ e.1 = t) ∧ (e.2 = s ∨ e.2 = t)) := by
    intro e heE hene hboth
    obtain ⟨_, _, he12, _⟩ := quotEdges_comp_mem (hE ▸ heE)
    have henorm : normPair e.1 e.2 = e := quotEdges_norm (hE ▸ heE)
    rcases hboth.1 with h1 | h1 <;> rcases hboth.2 with h2 | h2
    · exact he12 (h1.trans h2.symm)
    · exact hene (by rw [← henorm, h1, h2, hnorm_edge])
    · exact hene (by rw [← henorm, h1, h2, normPair_comm, hnorm_edge])
    · exact he12 (h1.trans h2.symm)
  dsimp only
  apply Finset.Subset.antisymm
  · intro f hf
    rw [Finset.mem_image] at hf
    obtain ⟨e, he', hfe⟩ := hf
    rw [Finset.mem_erase] at he'
    obtain ⟨hene, heE⟩ := he'
    obtain ⟨he1, he2, he12, hecr⟩ := quotEdges_comp_mem (hE ▸ heE)
    by_cases h1 : e.1 = s ∨ e.1 = t
    · have h2 : ¬(e.2 = s ∨ e.2 = t) := fun hc => hdichot heE hene ⟨h1, hc⟩
      rw [replaceEnd_fst h1] at hfe
      have he2Vt := hmemVt_old he2 (fun hc => h2 (Or.inl hc)) (fun hc => h2 (Or.inr hc))
      have hnncr : Crossing g (s ∪ t) e.2 := by
        rcases h1 with h | h
        · exact crossing_mono (h ▸ hecr) Finset.subset_union_left (le_refl _)
        · exact crossing_mono (h ▸ hecr) Finset.subset_union_right (le_refl _)
      exact mem_quotEdges.mpr ⟨s ∪ t, e.2, Finset.mem_insert_self _ _, he2Vt,
        fun hc => hold_ne_nn he2 hc.symm, hnncr, hfe.symm⟩
    · by_cases h2 : e.2 = s ∨ e.2 = t
      · rw [replaceEnd_snd h1 h2] at hfe
        have he1Vt := hmemVt_old he1 (fun hc => h1 (Or.inl hc)) (fun hc => h1 (Or.inr hc))
        have hnncr : Crossing g e.1 (s ∪ t) := by
          rcases h2 with h | h
          · exact crossing_mono (h ▸ hecr) (le_refl _) Finset.subset_union_left
          · exact crossing_mono (h ▸ hecr) (le_refl _) Finset.subset_union_right
        exact mem_quotEdges.mpr ⟨e.1, s ∪ t, he1Vt, Finset.mem_insert_self _ _,
          hold_ne_nn he1, hnncr, hfe.symm⟩
      · rw [replaceEnd_none h1 h2] at hfe
        have he1Vt := hmemVt_old he1 (fun hc => h1 (Or.inl hc)) (fun hc => h1 (Or.inr hc))
        have he2Vt := hmemVt_old he2 (fun hc => h2 (Or.inl hc)) (fun hc => h2 (Or.inr hc))
        refine mem_quotEdges.mpr ⟨e.1, e.2, he1Vt, he2Vt, he12, hecr, ?_⟩
        rw [← hfe]
        exact (quotEdges_norm (hE ▸ heE)).symm
  · intro f hf
    obtain ⟨A, B, hA, hB, hABne, hABcr, hfAB⟩ := mem_quotEdges.mp hf
    rw [Finset.mem_image]
    rcases Finset.mem_insert.mp hA with hAnn | hAold
    · -- A is the merged node
      rcases Finset.mem_insert.mp hB with hBnn | hBold
      · exact absurd (hAnn.trans hBnn.symm) hABne
      rw [Finset.mem_sdiff] at hBold
      have hBs : B ≠ s := fun hc => hBold.2 (by simp [hc])
      have hBt : B ≠ t := fun hc => hBold.2 (by simp [hc])
      have hcrB : Crossing g s B ∨ Crossing g t B := by
        apply crossing_union_left
        rw [← hAnn]
        exact hABcr
      rcases hcrB with hcrB | hcrB
      · refine ⟨normPair s B, ?_, ?_⟩
        · rw [Finset.mem_erase]
          constructor
          · intro hc
            rcases normPair_fst_snd s B with ⟨ha1, ha2⟩ | ⟨ha1, ha2⟩
            · exact hBt (by rw [← ha2, hc])
            · exact hBs (by rw [← ha1, hc])
          · rw [hE]
            exact mem_quotEdges.mpr ⟨s, B, hsV, hBold.1, fun hc => hBs hc.symm, hcrB, rfl⟩
        · rcases normPair_fst_snd s B with ⟨ha1, ha2⟩ | ⟨ha1, ha2⟩
          · rw [replaceEnd_fst (Or.inl ha1), ha2, hfAB, hAnn]
          · rw [replaceEnd_snd (by rw [ha1]; simp [hBs, hBt]) (Or.inl ha2), ha1, hfAB,
              hAnn, normPair_comm]
      · refine ⟨normPair t B, ?_, ?_⟩
        · rw [Finset.mem_erase]
          constructor
          · intro hc
            rcases normPair_fst_snd t B with ⟨ha1, ha2⟩ | ⟨ha1, ha2⟩
            · exact hBt (by rw [← ha2, hc])
            · exact hBs (by rw [← ha1, hc])
          · rw [hE]
            exact mem_quotEdges.mpr ⟨t, B, htV, hBold.1, fun hc => hBt hc.symm, hcrB, rfl⟩
        · rcases normPair_fst_snd t B with ⟨ha1, ha2⟩ | ⟨ha1, ha2⟩
          · rw [replaceEnd_fst (Or.inr ha1), ha2, hfAB, hAnn]
          · rw [replaceEnd_snd (by rw [ha1]; simp [hBs, hBt]) (Or.inr ha2), ha1, hfAB,
              hAnn, normPair_comm]
    · rcases Finset.mem_insert.mp hB with hBnn | hBold
      · -- B is the merged node
        rw [Finset.mem_sdiff] at hAold
        have hAs : A ≠ s := fun hc => hAold.2 (by simp [hc])
        have hAt : A ≠ t := fun hc => hAold.2 (by simp [hc])
        have hcrA : Crossing g s A ∨ Crossing g t A := by
          apply crossing_union_left
          apply crossing_symm
          rw [← hBnn]
          exact hABcr
        rcases hcrA with hcrA | hcrA
        · refine ⟨normPair s A, ?_, ?_⟩
          · rw [Finset.mem_erase]
            constructor
            · intro hc
              rcases normPair_fst_snd s A with ⟨ha1, ha2⟩ | ⟨ha1, ha2⟩
              · exact hAt (by rw [← ha2, hc])
              · exact hAs (by rw [← ha1, hc])
            · rw [hE]
              exact mem_quotEdges.mpr ⟨s, A, hsV, hAold.1, fun hc => hAs hc.symm, hcrA, rfl⟩
          · rcases normPair_fst_snd s A with ⟨ha1, ha2⟩ | ⟨ha1, ha2⟩
            · rw [replaceEnd_fst (Or.inl ha1), ha2, hfAB, hBnn, normPair_comm]
            · rw [replaceEnd_snd (by rw [ha1]; simp [hAs, hAt]) (Or.inl ha2), ha1, hfAB,
                hBnn]
        · refine ⟨normPair t A, ?_, ?_⟩
          · rw [Finset.mem_erase]
            constructor
            · intro hc
              rcases normPair_fst_snd t A with ⟨ha1, ha2⟩ | ⟨ha1, ha2⟩
              · exact hAt (by rw [← ha2, hc])
              · exact hAs (by rw [← ha1, hc])
            · rw [hE]
              exact mem_quotEdges.mpr ⟨t, A, htV, hAold.1, fun hc => hAt hc.symm, hcrA, rfl⟩
          · rcases normPair_fst_snd t A with ⟨ha1, ha2⟩ | ⟨ha1, ha2⟩
            · rw [replaceEnd_fst (Or.inr ha1), ha2, hfAB, hBnn, normPair_comm]
            · rw [replaceEnd_snd (by rw [ha1]; simp [hAs, hAt]) (Or.inr ha2), ha1, hfAB,
                hBnn]
      · -- both endpoints are old blocks
        rw [Finset.mem_sdiff] at hAold hBold
        have hAs : A ≠ s := fun hc => hAold.2 (by simp [hc])
        have hAt : A ≠ t := fun hc => hAold.2 (by simp [hc])
        have hBs : B ≠ s := fun hc => hBold.2 (by simp [hc])
        have hBt : B ≠ t := fun hc => hBold.2 (by simp [hc])
        have hfE : f ∈ nd.graph.edges := by
          rw [hE]
          exact mem_quotEdges.mpr ⟨A, B, hAold.1, hBold.1, hABne, hABcr, hfAB⟩
        have hfne : f ≠ (s, t) := by
          intro hc
          rcases normPair_fst_snd A B with ⟨ha1, _⟩ | ⟨ha1, _⟩
          · exact hAs (by rw [← ha1, ← hfAB, hc])
          · exact hBs (by rw [← ha1, ← hfAB, hc])
        refine ⟨f, Finset.mem_erase.mpr ⟨hfne, hfE⟩, ?_⟩
        have hf1 : ¬(f.1 = s ∨ f.1 = t) := by
          rcases normPair_fst_snd A B with ⟨ha1, _⟩ | ⟨ha1, _⟩
          · rw [hfAB, ha1]
            simp [hAs, hAt]
          · rw [hfAB, ha1]
            simp [hBs, hBt]
        have hf2 : ¬(f.2 = s ∨ f.2 = t) := by
          rcases normPair_fst_snd A B with ⟨_, ha2⟩ | ⟨_, ha2⟩
          · rw [hfAB, ha2]
            simp [hBs, hBt]
          · rw [hfAB, ha2]
            simp [hAs, hAt]
        exact replaceEnd_none hf1 hf2

theorem expandOne_nodes_eq {g : InputGraph} {nd : SearchSpaceNode} {edge : Label × Label}
    (hconn : g.Conn) (hinv : NodeInv g nd) (he : edge ∈ nd.graph.edges) :
    (nd.expandOne edge).graph.nodes =
      insert (edge.1 ∪ edge.2) (nd.graph.nodes \ {edge.1, edge.2}) := by
  obtain ⟨hsV, htV, hstne, _⟩ := quotEdges_comp_mem (hinv.edges_eq ▸ he)
  have hpartVt : IsPart g (insert (edge.1 ∪ edge.2) (nd.graph.nodes \ {edge.1, edge.2})) :=
    merge_isPart hinv.part hsV htV hstne
  show insert (edge.1 ∪ edge.2)
      (endpointsOf ((nd.graph.edges.erase edge).image (replaceEnd edge (edge.1 ∪ edge.2)))) = _
  rw [expand_edges_eq_quot hinv he]
  rcases le_or_lt 2 (insert (edge.1 ∪ edge.2) (nd.graph.nodes \ {edge.1, edge.2})).card with
    hc | hc
  · rw [endpointsOf_quotEdges_eq hconn hpartVt hc]
    exact Finset.insert_eq_self.mpr (Finset.mem_insert_self _ _)
  · rw [quotEdges_of_card_le_one (Nat.lt_succ_iff.mp hc)]
    have h1 : (insert (edge.1 ∪ edge.2) (nd.graph.nodes \ {edge.1, edge.2})).card = 1 :=
      le_antisymm (Nat.lt_succ_iff.mp hc)
        (Finset.card_pos.mpr ⟨edge.1 ∪ edge.2, Finset.mem_insert_self _ _⟩)
    obtain ⟨a, ha⟩ := Finset.card_eq_one.mp h1
    have : edge.1 ∪ edge.2 = a := by
      have := Finset.mem_insert_self (edge.1 ∪ edge.2) (nd.graph.nodes \ {edge.1, edge.2})
      rw [ha] at this
      exact Finset.mem_singleton.mp this
    rw [ha, ← this]
    rfl

theorem expandOne_inv {g : InputGraph} {nd : SearchSpaceNode} {edge : Label × Label}
    (hconn : g.Conn) (hinv : NodeInv g nd) (he : edge ∈ nd.graph.edges) :
    NodeInv g (nd.expandOne edge) := by
  obtain ⟨hsV, htV, hstne, _⟩ := quotEdges_comp_mem (hinv.edges_eq ▸ he)
  constructor
  · rw [expandOne_nodes_eq hconn hinv he]
    exact merge_isPart hinv.part hsV htV hstne
  · rw [expandOne_nodes_eq hconn hinv he]
    show (nd.graph.edges.erase edge).image (replaceEnd edge (edge.1 ∪ edge.2)) = _
    exact expand_edges_eq_quot hinv he

theorem expandOne_card {g : InputGraph} {nd : SearchSpaceNode} {edge : Label × Label}
    (hconn : g.Conn) (hinv : NodeInv g nd) (he : edge ∈ nd.graph.edges) :
    (nd.expandOne edge).graph.nodes.card + 1 = nd.graph.nodes.card := by
  obtain ⟨hsV, htV, hstne, _⟩ := quotEdges_comp_mem (hinv.edges_eq ▸ he)
  rw [expandOne_nodes_eq hconn hinv he]
  have hsub : {edge.1, edge.2} ⊆ nd.graph.nodes := by
    intro a ha
    rcases Finset.mem_insert.mp ha with h | h
    · exact h ▸ hsV
    · exact (Finset.mem_singleton.mp h) ▸ htV
  have hc2 : ({edge.1, edge.2} : Finset Label).card = 2 := Finset.card_pair hstne
  have hVge : 2 ≤ nd.graph.nodes.card := hc2 ▸ Finset.card_le_card hsub
  have hnotmem : edge.1 ∪ edge.2 ∉ nd.graph.nodes \ {edge.1, edge.2} := by
    intro hmem
    exact union_not_mem_part hinv.part hsV htV hstne (Finset.mem_sdiff.mp hmem).1
  rw [Finset.card_insert_of_not_mem hnotmem, Finset.card_sdiff hsub, hc2]
  omega

/-- Membership in `expandChildren`. -/
theorem mem_expandChildren {nd child : SearchSpaceNode} :
    child ∈ nd.expandChildren ↔ ∃ e ∈ nd.graph.edges, child = nd.expandOne e := by
  unfold SearchSpaceNode.expandChildren
  rw [Finset.mem_image]
  constructor
  · rintro ⟨e, he, hc⟩
    exact ⟨e, he, hc.symm⟩
  · rintro ⟨e, he, hc⟩
    exact ⟨e, he, hc.symm⟩

/-- `rootNode` of a well-formed graph: vertex set. -/
theorem rootNode_nodes {g : InputGraph} (hwf : g.WF) :
    (rootNode g).graph.nodes = g.nodes.image natLabel := by
  show (g.edges.biUnion (fun e => {natLabel e.1, natLabel e.2})) ∪ g.nodes.image natLabel = _
  rw [Finset.union_eq_right]
  intro B hB
  rw [Finset.mem_biUnion] at hB
  obtain ⟨e, he, hBe⟩ := hB
  obtain ⟨_, h1, h2⟩ := hwf e he
  rw [Finset.mem_image]
  rcases Finset.mem_insert.mp hBe with h | h
  · exact ⟨e.1, h1, h.symm⟩
  · exact ⟨e.2, h2, (Finset.mem_singleton.mp h).symm⟩

theorem rootNode_inv {g : InputGraph} (hwf : g.WF) : NodeInv g (rootNode g) := by
  have hnodes := rootNode_nodes hwf
  constructor
  · rw [hnodes]
    constructor
    · intro B hB
      rw [Finset.mem_image] at hB
      obtain ⟨a, _, hBa⟩ := hB
      exact ⟨a, hBa ▸ Finset.mem_singleton_self a⟩
    · intro B hB C hC a haB haC
      rw [Finset.mem_image] at hB hC
      obtain ⟨b, _, hBb⟩ := hB
      obtain ⟨c, _, hCc⟩ := hC
      rw [← hBb] at haB ⊢
      rw [← hCc] at haC ⊢
      rw [← Finset.mem_singleton.mp haB, ← Finset.mem_singleton.mp haC]
    · intro B hB
      rw [Finset.mem_image] at hB
      obtain ⟨a, ha, hBa⟩ := hB
      rw [← hBa]
      intro x hx
      rw [Finset.mem_singleton.mp hx]
      exact ha
    · intro a ha
      exact ⟨natLabel a, Finset.mem_image_of_mem natLabel ha, Finset.mem_singleton_self a⟩
  · rw [hnodes]
    show g.edges.image (fun e => normPair (natLabel e.1) (natLabel e.2)) = _
    apply Finset.Subset.antisymm
    · intro f hf
      rw [Finset.mem_image] at hf
      obtain ⟨e, he, hfe⟩ := hf
      obtain ⟨hne, h1, h2⟩ := hwf e he
      refine mem_quotEdges.mpr ⟨natLabel e.1, natLabel e.2,
        Finset.mem_image_of_mem natLabel h1, Finset.mem_image_of_mem natLabel h2, ?_, ?_,
        hfe.symm⟩
      · intro hc
        exact hne (Finset.singleton_injective hc)
      · exact ⟨e, he, Or.inl ⟨Finset.mem_singleton_self _, Finset.mem_singleton_self _⟩⟩
    · intro f hf
      obtain ⟨A, B, hA, hB, hABne, hABcr, hfAB⟩ := mem_quotEdges.mp hf
      rw [Finset.mem_image] at hA hB
      obtain ⟨a, _, hAa⟩ := hA
      obtain ⟨b, _, hBb⟩ := hB
      obtain ⟨e, he, hcase⟩ := hABcr
      rw [Finset.mem_image]
      rcases hcase with ⟨h1, h2⟩ | ⟨h1, h2⟩
      · refine ⟨e, he, ?_⟩
        rw [← hAa] at h1
        rw [← hBb] at h2
        rw [hfAB, ← hAa, ← hBb, Finset.mem_singleton.mp h1, Finset.mem_singleton.mp h2]
      · refine ⟨e, he, ?_⟩
        rw [← hBb] at h1
        rw [← hAa] at h2
        rw [hfAB, ← hAa, ← hBb, Finset.mem_singleton.mp h1, Finset.mem_singleton.mp h2,
          normPair_comm]

theorem rootNode_card {g : InputGraph} (hwf : g.WF) :
    (rootNode g).graph.nodes.card = g.nodes.card := by
  rw [rootNode_nodes hwf]
  exact Finset.card_image_of_injective g.nodes Finset.singleton_injective

theorem levelNodes_spec {g : InputGraph} (hwf : g.WF) (hconn : g.Conn) :
    ∀ i, ∀ nd ∈ levelNodes g i, NodeInv g nd ∧ nd.graph.nodes.card + i = g.nodes.card := by
  intro i
  induction i with
  | zero =>
    intro nd hnd
    rw [levelNodes, Finset.mem_singleton] at hnd
    subst hnd
    exact ⟨rootNode_inv hwf, by simp [rootNode_card hwf]⟩
  | succ i ih =>
    intro nd hnd
    rw [levelNodes, Finset.mem_biUnion] at hnd
    obtain ⟨p, hp, hchild⟩ := hnd
    obtain ⟨e, he, hnd⟩ := mem_expandChildren.mp hchild
    obtain ⟨hpinv, hpcard⟩ := ih p hp
    subst hnd
    refine ⟨expandOne_inv hconn hpinv he, ?_⟩
    have := expandOne_card hconn hpinv he
    omega

theorem edges_nonempty_of_two_le {g : InputGraph} {nd : SearchSpaceNode} (hconn : g.Conn)
    (hinv : NodeInv g nd) (h2 : 2 ≤ nd.graph.nodes.card) : nd.graph.edges.Nonempty := by
  obtain ⟨B, hB⟩ := Finset.card_pos.mp (by omega : 0 < nd.graph.nodes.card)
  obtain ⟨C, hC, hCne, hcr⟩ := exists_crossing_block hconn hinv.part h2 hB
  refine ⟨normPair B C, ?_⟩
  rw [hinv.edges_eq]
  exact mem_quotEdges.mpr ⟨B, C, hB, hC, fun hc => hCne hc.symm, hcr, rfl⟩

theorem edges_empty_of_card_le_one {g : InputGraph} {nd : SearchSpaceNode}
    (hinv : NodeInv g nd) (h : nd.graph.nodes.card ≤ 1) : nd.graph.edges = ∅ := by
  rw [hinv.edges_eq]
  exact quotEdges_of_card_le_one h

theorem levelNodes_nonempty {g : InputGraph} (hwf : g.WF) (hconn : g.Conn) :
    ∀ i, i + 1 ≤ g.nodes.card → (levelNodes g i).Nonempty := by
  intro i
  induction i with
  | zero => exact fun _ => ⟨rootNode g, Finset.mem_singleton_self _⟩
  | succ i ih =>
    intro hle
    obtain ⟨p, hp⟩ := ih (by omega)
    obtain ⟨hpinv, hpcard⟩ := levelNodes_spec hwf hconn i p hp
    obtain ⟨e, he⟩ := edges_nonempty_of_two_le hconn hpinv (by omega)
    refine ⟨p.expandOne e, ?_⟩
    rw [levelNodes, Finset.mem_biUnion]
    exact ⟨p, hp, mem_expandChildren.mpr ⟨e, he, rfl⟩⟩

theorem pyCount_levelNodes_zero (g : InputGraph) : pyCount (levelNodes g 0) = 1 := by
  rw [levelNodes]
  unfold pyCount
  rw [Finset.image_singleton, Finset.card_singleton]

/-- At the last level every node has a single cluster and no edges, so the level
deduplicates to exactly one partition. -/
theorem pyCount_levelNodes_last {g : InputGraph} (hwf : g.WF) (hconn : g.Conn)
    (hn : 1 ≤ g.nodes.card) : pyCount (levelNodes g (g.nodes.card - 1)) = 1 := by
  have hne := levelNodes_nonempty hwf hconn (g.nodes.card - 1) (by omega)
  unfold pyCount
  obtain ⟨nd, hnd⟩ := hne
  have himg : (levelNodes g (g.nodes.card - 1)).image (fun nd => nd.graph.edges) = {∅} := by
    apply Finset.Subset.antisymm
    · intro E hE
      rw [Finset.mem_image] at hE
      obtain ⟨m, hm, hEm⟩ := hE
      obtain ⟨hminv, hmcard⟩ := levelNodes_spec hwf hconn _ m hm
      rw [Finset.mem_singleton, ← hEm]
      exact edges_empty_of_card_le_one hminv (by omega)
    · intro E hE
      rw [Finset.mem_singleton.mp hE]
      rw [Finset.mem_image]
      obtain ⟨hndinv, hndcard⟩ := levelNodes_spec hwf hconn _ nd hnd
      exact ⟨nd, hnd, edges_empty_of_card_le_one hndinv (by omega)⟩
  rw [himg, Finset.card_singleton]

/-- Distinct chosen edges of one parent produce children with distinct vertex
sets. -/
theorem expandOne_nodes_injOn {g : InputGraph} {nd : SearchSpaceNode}
    {e f : Label × Label} (hconn : g.Conn) (hinv : NodeInv g nd)
    (he : e ∈ nd.graph.edges) (hf : f ∈ nd.graph.edges) (hef : e ≠ f) :
    (nd.expandOne e).graph.nodes ≠ (nd.expandOne f).graph.nodes := by
  obtain ⟨he1, he2, he12, _⟩ := quotEdges_comp_mem (hinv.edges_eq ▸ he)
  obtain ⟨hf1, hf2, hf12, _⟩ := quotEdges_comp_mem (hinv.edges_eq ▸ hf)
  have henorm : normPair e.1 e.2 = e := quotEdges_norm (hinv.edges_eq ▸ he)
  have hfnorm : normPair f.1 f.2 = f := quotEdges_norm (hinv.edges_eq ▸ hf)
  have hdisj := hinv.part.blocks_disj
  have hmm : e.1 ∪ e.2 ≠ f.1 ∪ f.2 := by
    intro hc
    obtain ⟨a, ha⟩ := hinv.part.blocks_nonempty e.1 he1
    have ha' : a ∈ f.1 ∪ f.2 := hc ▸ Finset.mem_union_left _ ha
    obtain ⟨b, hb⟩ := hinv.part.blocks_nonempty e.2 he2
    have hb' : b ∈ f.1 ∪ f.2 := hc ▸ Finset.mem_union_right _ hb
    rcases Finset.mem_union.mp ha' with h1 | h1 <;> rcases Finset.mem_union.mp hb' with h2 | h2
    · exact he12 ((hdisj e.1 he1 f.1 hf1 a ha h1).trans
        (hdisj e.2 he2 f.1 hf1 b hb h2).symm)
    · exact hef (by rw [← henorm, hdisj e.1 he1 f.1 hf1 a ha h1,
        hdisj e.2 he2 f.2 hf2 b hb h2, hfnorm])
    · exact hef (by rw [← henorm, hdisj e.1 he1 f.2 hf2 a ha h1,
        hdisj e.2 he2 f.1 hf1 b hb h2, normPair_comm, hfnorm])
    · exact he12 ((hdisj e.1 he1 f.2 hf2 a ha h1).trans
        (hdisj e.2 he2 f.2 hf2 b hb h2).symm)
  intro hc
  rw [expandOne_nodes_eq hconn hinv he, expandOne_nodes_eq hconn hinv hf] at hc
  have hmem : e.1 ∪ e.2 ∈ insert (f.1 ∪ f.2) (nd.graph.nodes \ {f.1, f.2}) := by
    rw [← hc]
    exact Finset.mem_insert_self _ _
  rcases Finset.mem_insert.mp hmem with h | h
  · exact hmm h
  · exact union_not_mem_part hinv.part he1 he2 he12 (Finset.mem_sdiff.mp h).1

/-- Interior levels (between the first and the final one) always hold at least
two distinct partitions. -/
theorem two_le_pyCount_succ {g : InputGraph} (hwf : g.WF) (hconn : g.Conn) {i : ℕ}
    (hn : i + 3 ≤ g.nodes.card) : 2 ≤ pyCount (levelNodes g (i + 1)) := by
  obtain ⟨p, hp⟩ := levelNodes_nonempty hwf hconn i (by omega)
  obtain ⟨hpinv, hpcard⟩ := levelNodes_spec hwf hconn i p hp
  -- the parent has at least three clusters, hence at least two edges
  have hV3 : 3 ≤ p.graph.nodes.card := by omega
  have h2 : 2 ≤ p.graph.nodes.card := by omega
  have hendp : endpointsOf p.graph.edges = p.graph.nodes := by
    rw [hpinv.edges_eq]
    exact endpointsOf_quotEdges_eq hconn hpinv.part h2
  have hE2 : ∃ e ∈ p.graph.edges, ∃ f ∈ p.graph.edges, e ≠ f := by
    by_contra hc
    push_neg at hc
    obtain ⟨e, he⟩ := edges_nonempty_of_two_le hconn hpinv h2
    have hsub : p.graph.nodes ⊆ {e.1, e.2} := by
      intro B hB
      rw [← hendp, mem_endpointsOf] at hB
      obtain ⟨e', he', hcase⟩ := hB
      rw [← hc e he e' he'] at hcase
      rcases hcase with h | h
      · exact Finset.mem_insert.mpr (Or.inl h)
      · exact Finset.mem_insert.mpr (Or.inr (Finset.mem_singleton.mpr h))
    have := Finset.card_le_card hsub
    have hle2 : ({e.1, e.2} : Finset Label).card ≤ 2 := Finset.card_insert_le _ _ |>.trans
      (by rw [Finset.card_singleton])
    omega
  obtain ⟨e, he, f, hf, hef⟩ := hE2
  have hc1 : p.expandOne e ∈ levelNodes g (i + 1) := by
    rw [levelNodes, Finset.mem_biUnion]
    exact ⟨p, hp, mem_expandChildren.mpr ⟨e, he, rfl⟩⟩
  have hc2 : p.expandOne f ∈ levelNodes g (i + 1) := by
    rw [levelNodes, Finset.mem_biUnion]
    exact ⟨p, hp, mem_expandChildren.mpr ⟨f, hf, rfl⟩⟩
  have hnodesne := expandOne_nodes_injOn hconn hpinv he hf hef
  have hedgesne : (p.expandOne e).graph.edges ≠ (p.expandOne f).graph.edges := by
    intro hc
    apply hnodesne
    have hinv1 := expandOne_inv hconn hpinv he
    have hinv2 := expandOne_inv hconn hpinv hf
    have hcard1 := expandOne_card hconn hpinv he
    have hcard2 := expandOne_card hconn hpinv hf
    have h1 : endpointsOf (p.expandOne e).graph.edges = (p.expandOne e).graph.nodes := by
      rw [hinv1.edges_eq]
      exact endpointsOf_quotEdges_eq hconn hinv1.part (by omega)
    have h2' : endpointsOf (p.expandOne f).graph.edges = (p.expandOne f).graph.nodes := by
      rw [hinv2.edges_eq]
      exact endpointsOf_quotEdges_eq hconn hinv2.part (by omega)
    rw [← h1, ← h2', hc]
  apply Finset.one_lt_card.mpr
  exact ⟨(p.expandOne e).graph.edges,
    Finset.mem_image_of_mem (fun nd => nd.graph.edges) hc1,
    (p.expandOne f).graph.edges,
    Finset.mem_image_of_mem (fun nd => nd.graph.edges) hc2, hedgesne⟩

/-- The state of a just-created level `k` during `build`: nodes present,
count not yet recorded, not yet expanded. -/
def freshLevel (g : InputGraph) (k : ℕ) : SearchSpaceLevel :=
  { level := k, nodes := some (levelNodes g k), numRec := none, hasNext := false }

/-- The state of level `j` after `build` finished: expanded unless last, and
compressed when the flag is set. -/
def expectedLevel (g : InputGraph) (cf : Bool) (j : ℕ) (islast : Bool) : SearchSpaceLevel :=
  if cf then
    { level := j, nodes := none, numRec := some (pyCount (levelNodes g j)), hasNext := !islast }
  else
    { level := j, nodes := some (levelNodes g j), numRec := none, hasNext := !islast }

theorem freshLevel_numPartitions (g : InputGraph) (k : ℕ) :
    (freshLevel g k).numPartitions = pyCount (levelNodes g k) := rfl

theorem expectedLevel_numPartitions (g : InputGraph) (cf : Bool) (j : ℕ) (b : Bool) :
    (expectedLevel g cf j b).numPartitions = pyCount (levelNodes g j) := by
  unfold expectedLevel SearchSpaceLevel.numPartitions
  cases cf <;> simp

theorem freshLevel_expand (g : InputGraph) (k : ℕ) :
    (freshLevel g k).expand =
      .ok ({ freshLevel g k with hasNext := true }, freshLevel g (k + 1)) := rfl

theorem freshLevel_step (g : InputGraph) (cf : Bool) (k : ℕ) :
    (if cf then ({ freshLevel g k with hasNext := true } : SearchSpaceLevel).compress
     else { freshLevel g k with hasNext := true }) = expectedLevel g cf k false := by
  cases cf <;> rfl

theorem buildLoop_spec {g : InputGraph} (hwf : g.WF) (hconn : g.Conn) (cf : Bool) :
    ∀ fuel k done, 1 ≤ k → k + 1 ≤ g.nodes.card → g.nodes.card ≤ k + 1 + fuel →
      buildLoop cf fuel done (freshLevel g k) =
        (done ++ ((List.range' k (g.nodes.card - 1 - k)).map
            (fun j => expectedLevel g cf j false)),
          freshLevel g (g.nodes.card - 1)) := by
  intro fuel
  induction fuel with
  | zero =>
    intro k done hk1 hkn hnle
    have hk : k = g.nodes.card - 1 := by omega
    subst hk
    rw [buildLoop]
    simp [Nat.sub_self]
  | succ fuel ih =>
    intro k done hk1 hkn hnle
    by_cases hklast : k + 2 ≤ g.nodes.card
    · have hcount : 2 ≤ (freshLevel g k).numPartitions := by
        rw [freshLevel_numPartitions]
        obtain ⟨i, hi⟩ : ∃ i, k = i + 1 := ⟨k - 1, by omega⟩
        subst hi
        exact two_le_pyCount_succ hwf hconn (by omega)
      rw [buildLoop, if_pos (by omega), freshLevel_expand]
      show buildLoop cf fuel (done ++ [_]) (freshLevel g (k + 1)) = _
      rw [freshLevel_step, ih (k + 1) (done ++ [expectedLevel g cf k false]) (by omega)
        (by omega) (by omega)]
      have hrange : g.nodes.card - 1 - k = (g.nodes.card - 1 - (k + 1)) + 1 := by omega
      rw [hrange, List.range'_succ, List.map_cons, List.append_assoc, List.singleton_append]
    · have hk : k = g.nodes.card - 1 := by omega
      subst hk
      have hcount : (freshLevel g (g.nodes.card - 1)).numPartitions = 1 := by
        rw [freshLevel_numPartitions]
        exact pyCount_levelNodes_last hwf hconn (by omega)
      rw [buildLoop, if_neg (by omega)]
      simp [Nat.sub_self]

/-- The level list produced by a completed `build`. -/
def builtLevels (g : InputGraph) (cf : Bool) : List SearchSpaceLevel :=
  ((List.range' 0 (g.nodes.card - 1)).map (fun j => expectedLevel g cf j false))
    ++ [expectedLevel g cf (g.nodes.card - 1) true]

/-- Full characterisation of `SearchSpace.build` on a well-formed connected graph
with at least two nodes. -/
theorem build_spec {ss : SearchSpace} (hwf : ss.graph.WF) (hconn : ss.graph.Conn)
    (hn : 2 ≤ ss.graph.nodes.card) :
    ss.build = .ok { ss with levels := some (builtLevels ss.graph ss.compressFlag) } := by
  unfold SearchSpace.build
  have hpos : 0 < ss.graph.nodes.card := by omega
  have hinit : levelInit (some ss.graph) none = .ok (freshLevel ss.graph 0) := by
    unfold levelInit
    dsimp only
    rw [if_pos hpos]
    rfl
  rw [hinit]
  show (match (freshLevel ss.graph 0).expand with
    | .error e => Except.error e
    | .ok (firstExp, second) => _) = _
  rw [freshLevel_expand]
  show Except.ok _ = _
  have hloop := buildLoop_spec hwf hconn ss.compressFlag
    (ss.graph.nodes.card + ss.graph.edges.card + 2) 1 [expectedLevel ss.graph ss.compressFlag 0 false]
    (le_refl 1) hn (by omega)
  rw [show (if ss.compressFlag then
        ({ freshLevel ss.graph 0 with hasNext := true } : SearchSpaceLevel).compress
      else { freshLevel ss.graph 0 with hasNext := true }) =
      expectedLevel ss.graph ss.compressFlag 0 false from freshLevel_step ss.graph ss.compressFlag 0]
  have hsecond : ({ level := (freshLevel ss.graph 0).level + 1,
                    nodes := some ((levelNodes ss.graph 0).biUnion SearchSpaceNode.expandChildren),
                    numRec := none,
                    hasNext := false } : SearchSpaceLevel) = freshLevel ss.graph 1 := rfl
  rw [hsecond]
  rw [hloop]
  have hlast : (if ss.compressFlag then (freshLevel ss.graph (ss.graph.nodes.card - 1)).compress
      else freshLevel ss.graph (ss.graph.nodes.card - 1)) =
      expectedLevel ss.graph ss.compressFlag (ss.graph.nodes.card - 1) true := by
    cases ss.compressFlag <;> rfl
  rw [hlast]
  unfold builtLevels
  have hrange : ss.graph.nodes.card - 1 = (ss.graph.nodes.card - 2) + 1 := by omega
  rw [hrange, List.range'_succ, List.map_cons, List.singleton_append, List.cons_append]
  have h1 : ss.graph.nodes.card - 2 + 1 - 1 = ss.graph.nodes.card - 2 := by omega
  rw [h1]
  simp [List.cons_append]

theorem builtLevels_length (g : InputGraph) (cf : Bool) (hn : 1 ≤ g.nodes.card) :
    (builtLevels g cf).length = g.nodes.card := by
  unfold builtLevels
  rw [List.length_append, List.length_map, List.length_range']
  simp
  omega

theorem builtLevels_getD {g : InputGraph} {cf : Bool} {i : ℕ} (hn : 1 ≤ g.nodes.card)
    (hi : i < g.nodes.card) :
    (builtLevels g cf).getD i default =
      expectedLevel g cf i (decide (i = g.nodes.card - 1)) := by
  unfold builtLevels
  rcases lt_or_ge i (g.nodes.card - 1) with h | h
  · have hlen : i < ((List.range' 0 (g.nodes.card - 1)).map
        (fun j => expectedLevel g cf j false)).length := by
      rw [List.length_map, List.length_range']
      omega
    rw [List.getD_append _ _ _ _ hlen, List.getD_eq_getElem _ _ hlen]
    have hne : decide (i = g.nodes.card - 1) = false := by
      simp
      omega
    rw [hne]
    simp [List.getElem_map, List.getElem_range']
  · have heq : i = g.nodes.card - 1 := by omega
    subst heq
    have hlen : ((List.range' 0 (g.nodes.card - 1)).map
        (fun j => expectedLevel g cf j false)).length = g.nodes.card - 1 := by
      rw [List.length_map, List.length_range']
    rw [List.getD_append_right _ _ _ _ (by omega), hlen]
    rw [Nat.sub_self]
    simp

/-! ## Claim theorems -/

/-- C9: the comparison defined on cluster labels (`fset.__lt__`) is a strict total
order on nonempty labels: for any two nonempty labels exactly one of `x < y`,
`x = y`, `y < x` holds; the relation is transitive; and it compares first by
smallest member and on ties lexicographically on the sorted member lists (where a
proper prefix precedes any longer sequence it prefixes — `List.Lex` on sorted
lists). -/
theorem fset_lt_strict_total_order :
    (∀ x y : Label, x.Nonempty → y.Nonempty →
       (fsetLt x y = true ∧ x ≠ y ∧ fsetLt y x = false) ∨
       (fsetLt x y = false ∧ x = y ∧ fsetLt y x = false) ∨
       (fsetLt x y = false ∧ x ≠ y ∧ fsetLt y x = true)) ∧
    (∀ x y z : Label, fsetLt x y = true → fsetLt y z = true → fsetLt x z = true) ∧
    (∀ x y : Label, x.Nonempty → y.Nonempty →
       (fsetLt x y = true ↔
         x.min < y.min ∨
           (x.min = y.min ∧ List.Lex (fun a b => a < b) (sortedList x) (sortedList y)))) := by
  refine ⟨?_, fun x y z => fsetLt_trans, ?_⟩
  · intro x y _ _
    by_cases hxy : x = y
    · subst hxy
      exact Or.inr (Or.inl ⟨fsetLt_irrefl x, rfl, fsetLt_irrefl x⟩)
    · rcases fsetLt_total_of_ne hxy with h | h
      · exact Or.inl ⟨h, hxy, fsetLt_asymm h⟩
      · exact Or.inr (Or.inr ⟨fsetLt_asymm h, hxy, h⟩)
  · intro x y _ _
    unfold fsetLt
    rcases lt_trichotomy x.min y.min with hm | hm | hm
    · simp [hm]
    · rw [if_neg (by rw [hm]; exact lt_irrefl _), if_neg (by rw [hm]; exact lt_irrefl _)]
      rw [lexLtB_iff_lex]
      constructor
      · intro h
        exact Or.inr ⟨hm, h⟩
      · rintro (h | ⟨_, h⟩)
        · exact absurd h (by rw [hm]; exact lt_irrefl _)
        · exact h
    · rw [if_neg (not_lt_of_lt hm), if_pos hm]
      constructor
      · intro h
        exact absurd h (by simp)
      · rintro (h | ⟨heq, _⟩)
        · exact absurd hm (not_lt_of_lt h)
        · exact absurd (heq ▸ hm) (lt_irrefl _)

theorem fset_lt_strict_total_order_witness :
    fsetLt {1} {3} = true ∧
    ((fsetLt {1} {1, 2} = true ∧ ({1} : Label) ≠ {1, 2} ∧ fsetLt {1, 2} {1} = false) ∨
     (fsetLt {1} {1, 2} = false ∧ ({1} : Label) = {1, 2} ∧ fsetLt {1, 2} {1} = false) ∨
     (fsetLt {1} {1, 2} = false ∧ ({1} : Label) ≠ {1, 2} ∧ fsetLt {1, 2} {1} = true)) ∧
    (fsetLt {1} {1, 2} = true ↔
      ({1} : Label).min < ({1, 2} : Label).min ∨
        (({1} : Label).min = ({1, 2} : Label).min ∧
          List.Lex (fun a b => a < b) (sortedList {1}) (sortedList {1, 2}))) :=
  ⟨fset_lt_strict_total_order.2.1 {1} {2} {3} (by decide) (by decide),
   fset_lt_strict_total_order.1 {1} {1, 2} (by decide) (by decide),
   fset_lt_strict_total_order.2.2 {1} {1, 2} (by decide) (by decide)⟩

theorem hashKeyOfList_perm {l₁ l₂ : List (Label × Label)}
    (h : (l₁.map canonPair).Perm (l₂.map canonPair)) :
    hashKeyOfList l₁ = hashKeyOfList l₂ :=
  List.eq_of_perm_of_sorted
    ((List.perm_insertionSort _ _).trans (h.trans (List.perm_insertionSort _ _).symm))
    (List.sorted_insertionSort _ _) (List.sorted_insertionSort _ _)

/-- C4: partition-node identity is by edge set only — equal edge sets give
`__eq__`-equal nodes regardless of the vertex sets, `__eq__`-equal nodes have
equal hash keys, and the hashed canonical form is invariant both to the order in
which edges are enumerated and to the order of the two endpoints inside each
edge (`canonPair` sorts the endpoints, so endpoint-swapped lists have permuted
canonical images). -/
theorem node_eq_hash_consistent :
    (∀ a b : SearchSpaceNode, a.graph.edges = b.graph.edges → pyEq a b = true) ∧
    (∀ a b : SearchSpaceNode, pyEq a b = true → nodeHashKey a = nodeHashKey b) ∧
    (∀ a b : Label, normPair a b = normPair b a) ∧
    (∀ l₁ l₂ : List (Label × Label), (l₁.map canonPair).Perm (l₂.map canonPair) →
       hashKeyOfList l₁ = hashKeyOfList l₂) := by
  refine ⟨?_, ?_, normPair_comm, fun l₁ l₂ h => hashKeyOfList_perm h⟩
  · intro a b h
    unfold pyEq
    exact decide_eq_true h
  · intro a b h
    unfold pyEq at h
    unfold nodeHashKey
    rw [of_decide_eq_true h]

def nodeW1 : SearchSpaceNode := ⟨⟨{{1}, {2}}, {({1}, {2})}⟩⟩

def nodeW2 : SearchSpaceNode := ⟨⟨{{1}, {2}, {3}}, {({1}, {2})}⟩⟩

theorem node_eq_hash_consistent_witness :
    pyEq nodeW1 nodeW2 = true ∧ nodeHashKey nodeW1 = nodeHashKey nodeW2 ∧
    normPair {1, 2} {3} = normPair {3} {1, 2} ∧
    hashKeyOfList [(({1} : Label), {2}), ({3}, {4})] =
      hashKeyOfList [(({4} : Label), {3}), ({2}, {1})] :=
  ⟨node_eq_hash_consistent.1 nodeW1 nodeW2 (by decide),
   node_eq_hash_consistent.2.1 nodeW1 nodeW2 (node_eq_hash_consistent.1 nodeW1 nodeW2 (by decide)),
   node_eq_hash_consistent.2.2.1 {1, 2} {3},
   node_eq_hash_consistent.2.2.2 _ _ (by decide)⟩

/-- C10: `SearchSpaceLevel.__init__` tests the graph's truthiness (its node
count), not its presence: a zero-node graph passed as `graph` is rejected with
"Either graph or previous needed"; for graphs with at least one node, exactly
one of `graph`/`previous` must be supplied — both raises, neither raises, one
succeeds. -/
theorem level_init_graph_truthiness :
    (∀ g : InputGraph, g.nodes.card = 0 →
       levelInit (some g) none = .error "Either graph or previous needed") ∧
    (∀ g : InputGraph, 0 < g.nodes.card →
       (∃ lv, levelInit (some g) none = .ok lv) ∧
       (∀ prev, ∃ lv, levelInit none (some prev) = .ok lv) ∧
       (∀ prev, levelInit (some g) (some prev) =
         .error "Only one of graph and previous allowed")) ∧
    (levelInit (none : Option InputGraph) none = .error "Either graph or previous needed") := by
  refine ⟨?_, ?_, rfl⟩
  · intro g hg
    unfold levelInit
    dsimp only
    rw [if_neg (by omega)]
  · intro g hg
    refine ⟨⟨{ level := 0, nodes := some {rootNode g}, numRec := none, hasNext := false }, ?_⟩,
      fun prev => ⟨_, rfl⟩, fun prev => ?_⟩
    · unfold levelInit
      dsimp only
      rw [if_pos hg]
    · unfold levelInit
      dsimp only
      rw [if_pos hg]

theorem level_init_graph_truthiness_witness :
    levelInit (some ⟨∅, ∅⟩) none = .error "Either graph or previous needed" ∧
    (∃ lv, levelInit (some ⟨{1}, ∅⟩) none = .ok lv) ∧
    (∃ lv, levelInit none (some default) = .ok lv) ∧
    levelInit (some ⟨{1}, ∅⟩) (some default) =
      .error "Only one of graph and previous allowed" :=
  ⟨level_init_graph_truthiness.1 ⟨∅, ∅⟩ (by decide),
   (level_init_graph_truthiness.2.1 ⟨{1}, ∅⟩ (by decide)).1,
   (level_init_graph_truthiness.2.1 ⟨{1}, ∅⟩ (by decide)).2.1 default,
   (level_init_graph_truthiness.2.1 ⟨{1}, ∅⟩ (by decide)).2.2 default⟩

theorem compress_of_some {lv : SearchSpaceLevel} {ns : Finset SearchSpaceNode}
    (h : lv.nodes = some ns) :
    lv.compress = { lv with numRec := some (pyCount ns), nodes := none } := by
  unfold SearchSpaceLevel.compress
  rw [h]

theorem compress_of_none {lv : SearchSpaceLevel} (h : lv.nodes = none) : lv.compress = lv := by
  unfold SearchSpaceLevel.compress
  rw [h]

/-- A level that has been (or could not be) compressed is well-formed: either no
count is recorded yet or the node set is gone. `compress` always produces a
well-formed level. -/
theorem compress_wf (lv : SearchSpaceLevel) :
    lv.compress.numRec = none ∨ lv.compress.nodes = none := by
  cases h : lv.nodes with
  | none => rw [compress_of_none h]; exact Or.inr h
  | some ns => rw [compress_of_some h]; exact Or.inr rfl

theorem expand_ok_shape {lv lv1 nxt : SearchSpaceLevel} (h : lv.expand = .ok (lv1, nxt)) :
    lv1 = { lv with hasNext := true } ∧ nxt.numRec = none ∧ nxt.level = lv.level + 1 ∧
      ∃ ns, lv.nodes = some ns ∧
        nxt.nodes = some (ns.biUnion SearchSpaceNode.expandChildren) ∧ lv.hasNext = false := by
  unfold SearchSpaceLevel.expand at h
  by_cases hn : lv.hasNext
  · rw [if_pos hn] at h
    exact absurd h (by simp)
  · rw [if_neg hn] at h
    cases hns : lv.nodes with
    | none =>
      rw [hns] at h
      exact absurd h (by simp)
    | some ns =>
      rw [hns] at h
      simp only [Except.ok.injEq, Prod.mk.injEq] at h
      obtain ⟨h1, h2⟩ := h
      refine ⟨h1.symm, by rw [← h2], by rw [← h2], ns, rfl, by rw [← h2],
        Bool.eq_false_iff.mpr hn⟩

theorem buildLoop_wf (cf : Bool) :
    ∀ fuel done (last : SearchSpaceLevel),
      (∀ lv ∈ done, lv.numRec = none ∨ lv.nodes = none) → last.numRec = none →
      (∀ lv ∈ (buildLoop cf fuel done last).1, lv.numRec = none ∨ lv.nodes = none) ∧
        (buildLoop cf fuel done last).2.numRec = none := by
  intro fuel
  induction fuel with
  | zero =>
    intro done last hdone hlast
    exact ⟨hdone, hlast⟩
  | succ fuel ih =>
    intro done last hdone hlast
    rw [buildLoop]
    by_cases hcond : 1 < last.numPartitions
    · rw [if_pos hcond]
      cases hexp : last.expand with
      | error e => exact ⟨hdone, hlast⟩
      | ok p =>
        obtain ⟨lastExp, next⟩ := p
        obtain ⟨hshape, hnextrec, _, _⟩ := expand_ok_shape hexp
        apply ih
        · intro lv hlv
          rcases List.mem_append.mp hlv with h | h
          · exact hdone lv h
          · rw [List.mem_singleton] at h
            subst h
            cases cf with
            | true => exact compress_wf lastExp
            | false =>
              left
              rw [hshape]
              exact hlast
        · exact hnextrec
    · rw [if_neg hcond]
      exact ⟨hdone, hlast⟩

theorem build_wf {ss ssb : SearchSpace} (h : ss.build = .ok ssb) :
    ∀ lv ∈ ssb.levels.getD [], lv.numRec = none ∨ lv.nodes = none := by
  unfold SearchSpace.build at h
  cases hinit : levelInit (some ss.graph) none with
  | error e =>
    rw [hinit] at h
    exact absurd h (by simp)
  | ok first =>
    rw [hinit] at h
    dsimp only at h
    cases hexp : first.expand with
    | error e =>
      rw [hexp] at h
      exact absurd h (by simp)
    | ok p =>
      obtain ⟨firstExp, second⟩ := p
      rw [hexp] at h
      dsimp only at h
      simp only [Except.ok.injEq] at h
      have hfirstrec : first.numRec = none := by
        unfold levelInit at hinit
        cases hg : (some ss.graph : Option InputGraph) with
        | none => exact absurd hg (by simp)
        | some g =>
          simp only at hinit
          by_cases hc : 0 < ss.graph.nodes.card
          · rw [if_pos hc] at hinit
            simp only [Except.ok.injEq] at hinit
            rw [← hinit]
          · rw [if_neg hc] at hinit
            exact absurd hinit (by simp)
      obtain ⟨hshape, hsecrec, _, _⟩ := expand_ok_shape hexp
      have hfd : ∀ lv ∈ [if ss.compressFlag then firstExp.compress else firstExp],
          lv.numRec = none ∨ lv.nodes = none := by
        intro lv hlv
        rw [List.mem_singleton] at hlv
        subst hlv
        cases hcf : ss.compressFlag with
        | true =>
          rw [if_pos rfl]
          exact compress_wf firstExp
        | false =>
          rw [if_neg Bool.false_ne_true]
          left
          rw [hshape]
          exact hfirstrec
      have hloop := buildLoop_wf ss.compressFlag
        (ss.graph.nodes.card + ss.graph.edges.card + 2)
        [if ss.compressFlag then firstExp.compress else firstExp] second hfd hsecrec
      intro lv hlv
      rw [← h] at hlv
      simp only [Option.getD_some] at hlv
      rcases List.mem_append.mp hlv with h' | h'
      · exact hloop.1 lv h'
      · rw [List.mem_singleton] at h'
        subst h'
        cases hcf : ss.compressFlag with
        | true =>
          rw [if_pos rfl]
          exact compress_wf _
        | false =>
          rw [if_neg Bool.false_ne_true]
          left
          rw [← hcf]
          exact hloop.2

/-- C5: reading `num_partitions` after `compress` gives the same value as before
(for every level state the program can reach: a recorded count and a live node
set never coexist), a second `compress` is a no-op, and every level of any
successfully built search space satisfies the round-trip.  `compress` is a total
function — it raises nothing. -/
theorem compress_roundtrip_idempotent :
    (∀ lv : SearchSpaceLevel, lv.numRec = none ∨ lv.nodes = none →
       lv.compress.numPartitions = lv.numPartitions) ∧
    (∀ lv : SearchSpaceLevel, lv.compress.compress = lv.compress) ∧
    (∀ ss ssb : SearchSpace, ss.build = .ok ssb →
       ∀ lv ∈ ssb.levels.getD [], lv.compress.numPartitions = lv.numPartitions) := by
  have hround : ∀ lv : SearchSpaceLevel, lv.numRec = none ∨ lv.nodes = none →
      lv.compress.numPartitions = lv.numPartitions := by
    intro lv h
    rcases h with h | h
    · cases hns : lv.nodes with
      | none => rw [compress_of_none hns]
      | some ns =>
        rw [compress_of_some hns]
        unfold SearchSpaceLevel.numPartitions
        rw [h]
        simp [hns]
    · rw [compress_of_none h]
  refine ⟨hround, ?_, ?_⟩
  · intro lv
    cases h : lv.nodes with
    | none => rw [compress_of_none h, compress_of_none h]
    | some ns =>
      rw [compress_of_some h]
      rw [compress_of_none rfl]
  · intro ss ssb hb lv hlv
    exact hround lv (build_wf hb lv hlv)

theorem compress_roundtrip_idempotent_witness :
    (({ level := 0, nodes := some {rootNode ⟨{1, 2}, {(1, 2)}⟩}, numRec := none,
        hasNext := false } : SearchSpaceLevel)).compress.numPartitions =
      ({ level := 0, nodes := some {rootNode ⟨{1, 2}, {(1, 2)}⟩}, numRec := none,
         hasNext := false } : SearchSpaceLevel).numPartitions :=
  compress_roundtrip_idempotent.1 _ (Or.inl rfl)

instance {e a : Type} [DecidableEq e] [DecidableEq a] : DecidableEq (Except e a) := fun x y =>
  match x, y with
  | .error e1, .error e2 => decidable_of_iff (e1 = e2) (by simp)
  | .ok v1, .ok v2 => decidable_of_iff (v1 = v2) (by simp)
  | .error _, .ok _ => isFalse (by simp)
  | .ok _, .error _ => isFalse (by simp)

theorem build_eq_of_same_inputs {a b : SearchSpace} (hg : a.graph = b.graph)
    (hc : a.compressFlag = b.compressFlag) : a.build = b.build := by
  unfold SearchSpace.build
  rw [hg, hc]

theorem build_fields {ss ssb : SearchSpace} (h : ss.build = .ok ssb) :
    ssb.graph = ss.graph ∧ ssb.compressFlag = ss.compressFlag := by
  unfold SearchSpace.build at h
  cases hinit : levelInit (some ss.graph) none with
  | error e =>
    rw [hinit] at h
    exact absurd h (by simp)
  | ok first =>
    rw [hinit] at h
    dsimp only at h
    cases hexp : first.expand with
    | error e =>
      rw [hexp] at h
      exact absurd h (by simp)
    | ok p =>
      obtain ⟨firstExp, second⟩ := p
      rw [hexp] at h
      dsimp only at h
      simp only [Except.ok.injEq] at h
      rw [← h]
      exact ⟨rfl, rfl⟩

/-- The concrete 4-cycle graph 1-2-3-4-1 used by the spec's worked example. -/
def cycle4 : InputGraph := { nodes := {1, 2, 3, 4}, edges := {(1, 2), (2, 3), (3, 4), (1, 4)} }

/-- C3 (counterexample to the re-build half): calling `build` a second time on the
already-built search space of the 4-cycle does **not** fail — the `Except.bind`
of the two builds is `ok`, and its value is the same (the source simply rebuilds
`_levels` from scratch, so the content is unchanged, but no "invalid operation"
error is raised as the claim demands). -/
theorem rebuild_does_not_fail_counterexample :
    ((SearchSpace.make cycle4 true).build.bind SearchSpace.build).isOk = true ∧
    (SearchSpace.make cycle4 true).build.bind SearchSpace.build =
      (SearchSpace.make cycle4 true).build := by
  constructor
  · decide
  · decide

/-- C3 (amended): re-expanding a level that already has a next level raises
"Already expanded" and leaves the level's state untouched (`expand` returns before
mutating anything); re-building, however, does not fail: a second `build` call on
the built search space succeeds and returns the same result as the first build
(the source rebuilds `_levels` from scratch from the unchanged graph). -/
theorem expand_once_rebuild_rebuilds :
    (∀ lv : SearchSpaceLevel, lv.hasNext = true → lv.expand = .error "Already expanded") ∧
    (∀ lv lv1 nxt : SearchSpaceLevel, lv.expand = .ok (lv1, nxt) →
       lv1.expand = .error "Already expanded") ∧
    (∀ ss ssb : SearchSpace, ss.build = .ok ssb → ssb.build = ss.build) := by
  have hexp : ∀ lv : SearchSpaceLevel, lv.hasNext = true →
      lv.expand = .error "Already expanded" := by
    intro lv h
    unfold SearchSpaceLevel.expand
    rw [if_pos h]
  refine ⟨hexp, ?_, ?_⟩
  · intro lv lv1 nxt h
    obtain ⟨hshape, _, _, _⟩ := expand_ok_shape h
    apply hexp
    rw [hshape]
  · intro ss ssb h
    obtain ⟨hg, hc⟩ := build_fields h
    exact build_eq_of_same_inputs hg hc

theorem expand_once_rebuild_rebuilds_witness :
    ({ level := 0, nodes := some ∅, numRec := none,
       hasNext := true } : SearchSpaceLevel).expand = .error "Already expanded" :=
  expand_once_rebuild_rebuilds.1 _ rfl

/-- C6 (counterexample to the dump half): in the compressed search space built for
the 4-cycle every level is compressed (`nodes = None`); `mean_num_edges` does fail
on each of them, but the partition dump of `print_results` does **not** fail as
the claim demands — its guard `if level.nodes and print_nodes` sees the falsy
`None` and silently skips the listing (`levelNodesDump` returns `none` rather than
an error; `print_results` has no failure path at all). -/
theorem compressed_dump_counterexample :
    (SearchSpace.make cycle4 true).build.toOption.map
        (fun s => (s.levels.getD []).map (fun lv => levelNodesDump lv true)) =
      some [none, none, none, none] ∧
    (SearchSpace.make cycle4 true).build.toOption.map
        (fun s => (s.levels.getD []).map (fun lv => lv.nodes)) =
      some [none, none, none, none] ∧
    (SearchSpace.make cycle4 true).build.toOption.map
        (fun s => (s.levels.getD []).map (fun lv => lv.meanNumEdges.isOk)) =
      some [false, false, false, false] := by
  refine ⟨by decide, by decide, by decide⟩

/-- C6 (amended): on a compressed level `mean_num_edges` fails with exactly the
invalid-state error and the `print_results` node dump silently yields nothing
(no error); on an uncompressed, nonempty level `mean_num_edges` succeeds, and the
dump with `print_nodes=True` shows the nodes. -/
theorem compressed_level_queries :
    (∀ lv : SearchSpaceLevel, lv.nodes = none →
       lv.meanNumEdges = .error "The search space is compressed, computation impossible" ∧
       ∀ b, levelNodesDump lv b = none) ∧
    (∀ (lv : SearchSpaceLevel) (ns : Finset SearchSpaceNode), lv.nodes = some ns →
       0 < pyCount ns → lv.meanNumEdges.isOk = true ∧ levelNodesDump lv true = some ns) := by
  constructor
  · intro lv h
    constructor
    · unfold SearchSpaceLevel.meanNumEdges
      rw [h]
    · intro b
      unfold levelNodesDump
      rw [h]
  · intro lv ns h hpos
    constructor
    · unfold SearchSpaceLevel.meanNumEdges
      rw [h]
      dsimp only
      rw [if_neg (by omega)]
      rfl
    · unfold levelNodesDump
      rw [h]
      dsimp only
      rw [if_pos (⟨hpos, rfl⟩ : 0 < pyCount ns ∧ true = true)]

def lvCompressedW : SearchSpaceLevel :=
  { level := 1, nodes := none, numRec := some 4, hasNext := true }

def lvFreshW : SearchSpaceLevel :=
  { level := 0, nodes := some {rootNode cycle4}, numRec := none, hasNext := false }

theorem compressed_level_queries_witness :
    (lvCompressedW.meanNumEdges =
        .error "The search space is compressed, computation impossible" ∧
      ∀ b, levelNodesDump lvCompressedW b = none) ∧
    (lvFreshW.meanNumEdges.isOk = true ∧
      levelNodesDump lvFreshW true = some {rootNode cycle4}) :=
  ⟨compressed_level_queries.1 lvCompressedW rfl,
   compressed_level_queries.2 lvFreshW {rootNode cycle4} rfl (by decide)⟩

/-- C1 (counterexample): building the search space of the 4-cycle yields level
sizes 1, 4, 6, 1 and a total of 12 partitions — not the 1, 4, 3, 1 / 9 the claim
states (level 2 holds all six 2-cluster partitions
123|4, 234|1, 341|2, 412|3, 12|34, 23|41). -/
theorem cycle4_level_sizes_counterexample :
    (SearchSpace.make cycle4 true).build.toOption.map
        (fun s => (s.levels.getD []).map SearchSpaceLevel.numPartitions) = some [1, 4, 6, 1] ∧
    (SearchSpace.make cycle4 true).build.toOption.map
        (fun s => (s.levels.getD []).map SearchSpaceLevel.numPartitions) ≠ some [1, 4, 3, 1] ∧
    (SearchSpace.make cycle4 true).build.toOption.map SearchSpace.numPartitionsTotal =
      some 12 ∧
    (SearchSpace.make cycle4 true).build.toOption.map SearchSpace.numPartitionsTotal ≠
      some 9 := by
  refine ⟨by decide, by decide, by decide, by decide⟩

/-- C1 (amended): the 4-cycle's built search space has four levels of sizes
1 (four clusters), 4 (three clusters), 6 (two clusters) and 1 (one cluster),
total 12 partitions. -/
theorem cycle4_level_sizes :
    (SearchSpace.make cycle4 true).build.toOption.map SearchSpace.numLevels = some 4 ∧
    (SearchSpace.make cycle4 true).build.toOption.map
        (fun s => (s.levels.getD []).map SearchSpaceLevel.numPartitions) = some [1, 4, 6, 1] ∧
    (SearchSpace.make cycle4 true).build.toOption.map SearchSpace.numPartitionsTotal =
      some 12 := by
  refine ⟨by decide, by decide, by decide⟩

/-- The one-node connected graph. -/
def singleNode : InputGraph := { nodes := {1}, edges := ∅ }

/-- C2 (counterexample): for the connected graph with a single node (n = 1) the
built search space has **two** levels, not one — level 1 is created empty by the
unconditional first `expand` and holds zero partitions, so "the final level holds
exactly one partition node" also fails. -/
theorem single_node_levels_counterexample :
    singleNode.Conn ∧ singleNode.nodes.card = 1 ∧
    (SearchSpace.make singleNode true).build.toOption.map SearchSpace.numLevels = some 2 ∧
    (SearchSpace.make singleNode true).build.toOption.map
        (fun s => s.numPartitionsAt 1) = some 0 := by
  refine ⟨by decide, by decide, by decide, by decide⟩

/-- C2 (amended): for every well-formed connected input graph with n ≥ 2 nodes,
`build` succeeds, produces exactly n levels, level 0 counts exactly one partition
node, the final level counts exactly one partition node, and (in uncompressed
mode) the final level's node set is a singleton class whose members all have no
edges remaining. -/
theorem build_levels_shape {ss : SearchSpace} (hwf : ss.graph.WF) (hconn : ss.graph.Conn)
    (hn : 2 ≤ ss.graph.nodes.card) :
    ∃ ssb, ss.build = .ok ssb ∧
      ssb.numLevels = ss.graph.nodes.card ∧
      ssb.numPartitionsAt 0 = 1 ∧
      ssb.numPartitionsAt (ss.graph.nodes.card - 1) = 1 ∧
      (ss.compressFlag = false →
        ∃ ns, ((ssb.levels.getD []).getD (ss.graph.nodes.card - 1) default).nodes = some ns ∧
          pyCount ns = 1 ∧ ∀ nd ∈ ns, nd.graph.edges = ∅) := by
  refine ⟨_, build_spec hwf hconn hn, ?_, ?_, ?_, ?_⟩
  · unfold SearchSpace.numLevels
    simp only [Option.getD_some]
    exact builtLevels_length ss.graph ss.compressFlag (by omega)
  · unfold SearchSpace.numPartitionsAt
    simp only [Option.getD_some]
    rw [builtLevels_getD (by omega) (by omega), expectedLevel_numPartitions]
    exact pyCount_levelNodes_zero ss.graph
  · unfold SearchSpace.numPartitionsAt
    simp only [Option.getD_some]
    rw [builtLevels_getD (by omega) (by omega), expectedLevel_numPartitions]
    exact pyCount_levelNodes_last hwf hconn (by omega)
  · intro hcf
    simp only [Option.getD_some]
    rw [builtLevels_getD (by omega) (by omega)]
    refine ⟨levelNodes ss.graph (ss.graph.nodes.card - 1), ?_, ?_, ?_⟩
    · unfold expectedLevel
      rw [hcf]
      simp
    · exact pyCount_levelNodes_last hwf hconn (by omega)
    · intro nd hnd
      obtain ⟨hinv, hcard⟩ := levelNodes_spec hwf hconn _ nd hnd
      exact edges_empty_of_card_le_one hinv (by omega)

theorem build_levels_shape_witness :
    ∃ ssb, (SearchSpace.make cycle4 false).build = .ok ssb ∧
      ssb.numLevels = (SearchSpace.make cycle4 false).graph.nodes.card ∧
      ssb.numPartitionsAt 0 = 1 ∧
      ssb.numPartitionsAt ((SearchSpace.make cycle4 false).graph.nodes.card - 1) = 1 ∧
      ((SearchSpace.make cycle4 false).compressFlag = false →
        ∃ ns, ((ssb.levels.getD []).getD
            ((SearchSpace.make cycle4 false).graph.nodes.card - 1) default).nodes = some ns ∧
          pyCount ns = 1 ∧ ∀ nd ∈ ns, nd.graph.edges = ∅) :=
  build_levels_shape (by decide) (by decide) (by decide)

/-- The partition nodes the enumerator can reach from the input graph: the root
and every repeated `expand` child. -/
inductive ReachableNode (g : InputGraph) : SearchSpaceNode → Prop where
  | root : ReachableNode g (rootNode g)
  | step {nd : SearchSpaceNode} {e : Label × Label} :
      ReachableNode g nd → e ∈ nd.graph.edges → ReachableNode g (nd.expandOne e)

theorem reachable_inv {g : InputGraph} {nd : SearchSpaceNode} (hwf : g.WF) (hconn : g.Conn)
    (hr : ReachableNode g nd) : NodeInv g nd := by
  induction hr with
  | root => exact rootNode_inv hwf
  | step hr he ih => exact expandOne_inv hconn ih he

/-- C8: on every partition node reachable from a well-formed connected input
graph, `expand` cannot fail: every child produced for any edge has exactly one
vertex fewer than its parent, so the source's
`assert new_graph.order() == self._graph.order() - 1` always holds. -/
theorem expand_child_order {g : InputGraph} {nd : SearchSpaceNode} (hwf : g.WF)
    (hconn : g.Conn) (hr : ReachableNode g nd) :
    ∀ e ∈ nd.graph.edges, (nd.expandOne e).graph.nodes.card + 1 = nd.graph.nodes.card :=
  fun _ he => expandOne_card hconn (reachable_inv hwf hconn hr) he

theorem expand_child_order_witness :
    ((rootNode cycle4).expandOne (natLabel 1, natLabel 2)).graph.nodes.card + 1 =
      (rootNode cycle4).graph.nodes.card :=
  expand_child_order (by decide) (by decide) ReachableNode.root
    (natLabel 1, natLabel 2) (by decide)

/-! ### C7 upper bound: at most `S(n, k)` partitions with `k` blocks -/

theorem stirlingFn_zero_succ (n : ℕ) : stirlingFn (n + 1) 0 = 0 := rfl

theorem stirlingFn_one : ∀ n : ℕ, 1 ≤ n → stirlingFn n 1 = 1 := by
  intro n
  induction n with
  | zero => omega
  | succ n ih =>
    intro _
    show 1 * stirlingFn n 1 + stirlingFn n 0 = 1
    cases n with
    | zero => rfl
    | succ m =>
      rw [stirlingFn_zero_succ, ih (by omega)]

/-- A family of labels is a partition of the finite set `s`. -/
def IsPartitionOf (s : Finset ℕ) (V : Finset Label) : Prop :=
  (∀ B ∈ V, B.Nonempty) ∧ (∀ B ∈ V, ∀ C ∈ V, ∀ a, a ∈ B → a ∈ C → B = C) ∧
    (∀ B ∈ V, B ⊆ s) ∧ ∀ a ∈ s, ∃ B ∈ V, a ∈ B

instance (s : Finset ℕ) (V : Finset Label) : Decidable (IsPartitionOf s V) := by
  unfold IsPartitionOf
  infer_instance

/-- All partitions of `s` into exactly `k` blocks. -/
def partitionsOfCard (s : Finset ℕ) (k : ℕ) : Finset (Finset Label) :=
  s.powerset.powerset.filter (fun V => V.card = k ∧ IsPartitionOf s V)

theorem mem_partitionsOfCard {s : Finset ℕ} {k : ℕ} {V : Finset Label} :
    V ∈ partitionsOfCard s k ↔ V.card = k ∧ IsPartitionOf s V := by
  unfold partitionsOfCard
  rw [Finset.mem_filter, Finset.mem_powerset]
  constructor
  · rintro ⟨_, h⟩
    exact h
  · rintro ⟨hc, hp⟩
    refine ⟨?_, hc, hp⟩
    intro B hB
    rw [Finset.mem_powerset]
    exact hp.2.2.1 B hB

/-- The (unique) block of a partition containing `x`, computed canonically. -/
def xblock (x : ℕ) (V : Finset Label) : Label := (V.filter (fun B => x ∈ B)).sup id

theorem xblock_spec {s : Finset ℕ} {V : Finset Label} (hp : IsPartitionOf s V) {x : ℕ}
    (hx : x ∈ s) :
    xblock x V ∈ V ∧ x ∈ xblock x V ∧ ∀ B ∈ V, x ∈ B → B = xblock x V := by
  obtain ⟨B, hB, hxB⟩ := hp.2.2.2 x hx
  have hfilter : V.filter (fun C => x ∈ C) = {B} := by
    apply Finset.Subset.antisymm
    · intro C hC
      rw [Finset.mem_filter] at hC
      rw [Finset.mem_singleton]
      exact (hp.2.1 C hC.1 B hB x hC.2 hxB)
    · intro C hC
      rw [Finset.mem_singleton.mp hC, Finset.mem_filter]
      exact ⟨hB, hxB⟩
  have hxb : xblock x V = B := by
    unfold xblock
    rw [hfilter]
    simp
  rw [hxb]
  refine ⟨hB, hxB, ?_⟩
  intro C hC hxC
  exact hp.2.1 C hC B hB x hxC hxB

theorem card_partitions_with_singleton {x : ℕ} {t : Finset ℕ} (hx : x ∉ t) (k : ℕ) :
    ((partitionsOfCard (insert x t) (k + 1)).filter (fun V => {x} ∈ V)).card ≤
      (partitionsOfCard t k).card := by
  apply Finset.card_le_card_of_injOn (fun V => V.erase {x})
  · intro V hV
    rw [Finset.mem_filter] at hV
    obtain ⟨hVmem, hxV⟩ := hV
    obtain ⟨hcard, hnon, hdisj, hsub, htot⟩ := mem_partitionsOfCard.mp hVmem
    rw [mem_partitionsOfCard]
    refine ⟨?_, ?_, ?_, ?_, ?_⟩
    · rw [Finset.card_erase_of_mem hxV, hcard]
      omega
    · intro B hB
      exact hnon B (Finset.mem_of_mem_erase hB)
    · intro B hB C hC a haB haC
      exact hdisj B (Finset.mem_of_mem_erase hB) C (Finset.mem_of_mem_erase hC) a haB haC
    · intro B hB a haB
      have hBV := Finset.mem_of_mem_erase hB
      have hBne := Finset.ne_of_mem_erase hB
      have hins : a ∈ insert x t := hsub B hBV haB
      rcases Finset.mem_insert.mp hins with h | h
      · exfalso
        apply hBne
        apply hdisj B hBV ({x} : Label) hxV a haB
        rw [h]
        exact Finset.mem_singleton_self x
      · exact h
    · intro a ha
      obtain ⟨B, hB, haB⟩ := htot a (Finset.mem_insert_of_mem ha)
      refine ⟨B, Finset.mem_erase.mpr ⟨?_, hB⟩, haB⟩
      intro hc
      subst hc
      exact hx (Finset.mem_singleton.mp haB ▸ ha)
  · intro V₁ hV₁ V₂ hV₂ heq
    rw [Finset.coe_filter, Set.mem_setOf_eq] at hV₁ hV₂
    have heq' : V₁.erase {x} = V₂.erase {x} := heq
    rw [← Finset.insert_erase hV₁.2, ← Finset.insert_erase hV₂.2, heq']

theorem card_partitions_without_singleton {x : ℕ} {t : Finset ℕ} (hx : x ∉ t) (k : ℕ) :
    ((partitionsOfCard (insert x t) (k + 1)).filter (fun V => {x} ∉ V)).card ≤
      (k + 1) * (partitionsOfCard t (k + 1)).card := by
  have hsig : ((partitionsOfCard t (k + 1)).sigma (fun W => W)).card =
      (k + 1) * (partitionsOfCard t (k + 1)).card := by
    rw [Finset.card_sigma]
    rw [Finset.sum_congr rfl (fun W hW => (mem_partitionsOfCard.mp hW).1)]
    rw [Finset.sum_const, smul_eq_mul, mul_comm]
  rw [← hsig]
  apply Finset.card_le_card_of_injOn
    (fun V => ⟨V.image (fun B => B.erase x), (xblock x V).erase x⟩)
  · intro V hV
    rw [Finset.mem_filter] at hV
    obtain ⟨hVmem, hxV⟩ := hV
    obtain ⟨hcard, hnon, hdisj, hsub, htot⟩ := mem_partitionsOfCard.mp hVmem
    have hpart : IsPartitionOf (insert x t) V := ⟨hnon, hdisj, hsub, htot⟩
    obtain ⟨hbx_mem, hbx_x, hbx_uniq⟩ := xblock_spec hpart (Finset.mem_insert_self x t)
    have hbx_ne : xblock x V ≠ {x} := fun hc => hxV (hc ▸ hbx_mem)
    have hbx_big : ((xblock x V).erase x).Nonempty := by
      by_contra hc
      rw [Finset.not_nonempty_iff_eq_empty] at hc
      apply hbx_ne
      apply Finset.Subset.antisymm
      · intro a ha
        rcases eq_or_ne a x with h | h
        · exact h ▸ Finset.mem_singleton_self x
        · exact absurd (Finset.mem_erase.mpr ⟨h, ha⟩) (hc ▸ Finset.not_mem_empty a)
      · intro a ha
        exact Finset.mem_singleton.mp ha ▸ hbx_x
    have hno_x : ∀ B ∈ V, B ≠ xblock x V → x ∉ B := by
      intro B hB hBne hxB
      exact hBne (hbx_uniq B hB hxB)
    have herase_inj : ∀ B ∈ V, ∀ C ∈ V, B.erase x = C.erase x → B = C := by
      intro B hB C hC hBC
      by_cases hxB : x ∈ B
      · by_cases hxC : x ∈ C
        · rw [hbx_uniq B hB hxB, hbx_uniq C hC hxC]
        · have hCB : C = B.erase x := by rw [hBC, Finset.erase_eq_of_not_mem hxC]
          obtain ⟨a, ha⟩ := hnon C hC
          have haB : a ∈ B := Finset.mem_of_mem_erase (hCB ▸ ha)
          have := hdisj C hC B hB a ha haB
          rw [this] at hCB
          exact absurd (hCB ▸ hxB : x ∈ B.erase x) (Finset.not_mem_erase x B)
      · by_cases hxC : x ∈ C
        · have hBC' : B = C.erase x := by rw [← hBC, Finset.erase_eq_of_not_mem hxB]
          obtain ⟨a, ha⟩ := hnon B hB
          have haC : a ∈ C := Finset.mem_of_mem_erase (hBC' ▸ ha)
          have := hdisj B hB C hC a ha haC
          rw [this] at hBC'
          exact absurd (hBC' ▸ hxC : x ∈ C.erase x) (Finset.not_mem_erase x C)
        · rw [← Finset.erase_eq_of_not_mem hxB, ← Finset.erase_eq_of_not_mem hxC, hBC]
    rw [Finset.mem_sigma]
    constructor
    · rw [mem_partitionsOfCard]
      refine ⟨?_, ?_, ?_, ?_, ?_⟩
      · rw [Finset.card_image_of_injOn herase_inj, hcard]
      · intro D hD
        rw [Finset.mem_image] at hD
        obtain ⟨B, hB, hBD⟩ := hD
        by_cases hxB : x ∈ B
        · rw [← hBD, hbx_uniq B hB hxB]
          exact hbx_big
        · rw [← hBD, Finset.erase_eq_of_not_mem hxB]
          exact hnon B hB
      · intro D₁ hD₁ D₂ hD₂ a haD₁ haD₂
        rw [Finset.mem_image] at hD₁ hD₂
        obtain ⟨B₁, hB₁, hBD₁⟩ := hD₁
        obtain ⟨B₂, hB₂, hBD₂⟩ := hD₂
        have haB₁ : a ∈ B₁ := Finset.mem_of_mem_erase (hBD₁ ▸ haD₁)
        have haB₂ : a ∈ B₂ := Finset.mem_of_mem_erase (hBD₂ ▸ haD₂)
        rw [← hBD₁, ← hBD₂, hdisj B₁ hB₁ B₂ hB₂ a haB₁ haB₂]
      · intro D hD a haD
        rw [Finset.mem_image] at hD
        obtain ⟨B, hB, hBD⟩ := hD
        have haB : a ∈ B := Finset.mem_of_mem_erase (hBD ▸ haD)
        have hax : a ≠ x := Finset.ne_of_mem_erase (hBD ▸ haD)
        rcases Finset.mem_insert.mp (hsub B hB haB) with h | h
        · exact absurd h hax
        · exact h
      · intro a ha
        obtain ⟨B, hB, haB⟩ := htot a (Finset.mem_insert_of_mem ha)
        refine ⟨B.erase x, Finset.mem_image_of_mem _ hB, ?_⟩
        exact Finset.mem_erase.mpr ⟨fun hc => hx (hc ▸ ha), haB⟩
    · exact Finset.mem_image_of_mem _ hbx_mem
  · intro V₁ hV₁ V₂ hV₂ heq
    rw [Finset.coe_filter, Set.mem_setOf_eq] at hV₁ hV₂
    simp only [Sigma.mk.inj_iff, heq_eq_eq] at heq
    obtain ⟨hW, hC⟩ := heq
    -- reconstruct each V from its image and the residue of x's block
    have hrecon : ∀ V, V ∈ partitionsOfCard (insert x t) (k + 1) → {x} ∉ V →
        V = insert (insert x ((xblock x V).erase x))
          ((V.image (fun B => B.erase x)).erase ((xblock x V).erase x)) := by
      intro V hVmem hxV
      obtain ⟨hcard, hnon, hdisj, hsub, htot⟩ := mem_partitionsOfCard.mp hVmem
      have hpart : IsPartitionOf (insert x t) V := ⟨hnon, hdisj, hsub, htot⟩
      obtain ⟨hbx_mem, hbx_x, hbx_uniq⟩ := xblock_spec hpart (Finset.mem_insert_self x t)
      have hinsx : insert x ((xblock x V).erase x) = xblock x V :=
        Finset.insert_erase hbx_x
      rw [hinsx]
      have himg : (V.image (fun B => B.erase x)).erase ((xblock x V).erase x) =
          V.erase (xblock x V) := by
        apply Finset.Subset.antisymm
        · intro D hD
          obtain ⟨hDne, hDmem⟩ := Finset.mem_erase.mp hD
          rw [Finset.mem_image] at hDmem
          obtain ⟨B, hB, hBD⟩ := hDmem
          have hxB : x ∉ B := by
            intro hxB
            exact hDne (by rw [← hBD, hbx_uniq B hB hxB])
          rw [Finset.mem_erase, ← hBD, Finset.erase_eq_of_not_mem hxB]
          refine ⟨?_, hB⟩
          intro hc
          exact hxB (hc ▸ hbx_x)
        · intro B hB
          obtain ⟨hBne, hBmem⟩ := Finset.mem_erase.mp hB
          have hxB : x ∉ B := fun hxB => hBne (hbx_uniq B hBmem hxB)
          rw [Finset.mem_erase]
          constructor
          · intro hc
            obtain ⟨a, ha⟩ := hnon B hBmem
            have haBx : a ∈ xblock x V := Finset.mem_of_mem_erase (hc ▸ ha)
            exact hBne (hdisj B hBmem (xblock x V) hbx_mem a ha haBx)
          · rw [← Finset.erase_eq_of_not_mem hxB]
            exact Finset.mem_image_of_mem _ hBmem
      rw [himg, Finset.insert_erase hbx_mem]
    rw [hrecon V₁ hV₁.1 hV₁.2, hrecon V₂ hV₂.1 hV₂.2, hW, hC]

theorem card_partitionsOfCard_le (s : Finset ℕ) :
    ∀ k, (partitionsOfCard s k).card ≤ stirlingFn s.card k := by
  induction s using Finset.induction_on with
  | empty =>
    intro k
    cases k with
    | zero =>
      have hsub : partitionsOfCard ∅ 0 ⊆ {∅} := by
        intro V hV
        obtain ⟨hcard, _⟩ := mem_partitionsOfCard.mp hV
        rw [Finset.mem_singleton]
        exact Finset.card_eq_zero.mp hcard
      calc (partitionsOfCard ∅ 0).card ≤ ({∅} : Finset (Finset Label)).card :=
            Finset.card_le_card hsub
        _ = 1 := Finset.card_singleton _
        _ ≤ stirlingFn (∅ : Finset ℕ).card 0 := le_of_eq rfl
    | succ k =>
      have hempty : partitionsOfCard ∅ (k + 1) = ∅ := by
        rw [Finset.eq_empty_iff_forall_not_mem]
        intro V hV
        obtain ⟨hcard, hnon, _, hsub, _⟩ := mem_partitionsOfCard.mp hV
        obtain ⟨B, hB⟩ := Finset.card_pos.mp (by omega : 0 < V.card)
        obtain ⟨a, ha⟩ := hnon B hB
        exact Finset.not_mem_empty a (hsub B hB ha)
      rw [hempty]
      simp
  | @insert x t hx ih =>
    intro k
    rw [Finset.card_insert_of_not_mem hx]
    cases k with
    | zero =>
      have hempty : partitionsOfCard (insert x t) 0 = ∅ := by
        rw [Finset.eq_empty_iff_forall_not_mem]
        intro V hV
        obtain ⟨hcard, _, _, _, htot⟩ := mem_partitionsOfCard.mp hV
        obtain ⟨B, hB, _⟩ := htot x (Finset.mem_insert_self x t)
        rw [Finset.card_eq_zero.mp hcard] at hB
        exact Finset.not_mem_empty B hB
      rw [hempty]
      simp [stirlingFn_zero_succ]
    | succ k =>
      have hsplit := Finset.filter_card_add_filter_neg_card_eq_card
        (s := partitionsOfCard (insert x t) (k + 1)) (p := fun V => {x} ∈ V)
      have h1 := card_partitions_with_singleton hx k
      have h2 := card_partitions_without_singleton hx k
      have hS : stirlingFn (t.card + 1) (k + 1) =
          (k + 1) * stirlingFn t.card (k + 1) + stirlingFn t.card k := rfl
      have hik := ih k
      have hik1 := ih (k + 1)
      have hmul : (k + 1) * (partitionsOfCard t (k + 1)).card ≤
          (k + 1) * stirlingFn t.card (k + 1) := Nat.mul_le_mul_left _ hik1
      omega

theorem level_image_elem_spec {g : InputGraph} (hwf : g.WF) (hconn : g.Conn) {i : ℕ}
    (hi : i + 2 ≤ g.nodes.card) {E : Finset (Label × Label)}
    (hE : E ∈ (levelNodes g i).image (fun nd => nd.graph.edges)) :
    endpointsOf E ∈ partitionsOfCard g.nodes (g.nodes.card - i) ∧
      E = quotEdges g (endpointsOf E) := by
  rw [Finset.mem_image] at hE
  obtain ⟨nd, hnd, hEnd⟩ := hE
  obtain ⟨hinv, hcard⟩ := levelNodes_spec hwf hconn i nd hnd
  have hc2 : 2 ≤ nd.graph.nodes.card := by omega
  have hend : endpointsOf E = nd.graph.nodes := by
    rw [← hEnd, hinv.edges_eq]
    exact endpointsOf_quotEdges_eq hconn hinv.part hc2
  constructor
  · rw [hend, mem_partitionsOfCard]
    exact ⟨by omega, hinv.part.blocks_nonempty, hinv.part.blocks_disj,
      hinv.part.blocks_sub, hinv.part.blocks_total⟩
  · rw [hend, ← hinv.edges_eq, hEnd]

/-- The per-level count never exceeds the Stirling number of the second kind. -/
theorem pyCount_le_stirling {g : InputGraph} (hwf : g.WF) (hconn : g.Conn) {i : ℕ}
    (hi : i + 1 ≤ g.nodes.card) :
    pyCount (levelNodes g i) ≤ stirlingFn g.nodes.card (g.nodes.card - i) := by
  rcases eq_or_lt_of_le hi with hlast | hmid
  · have hieq : i = g.nodes.card - 1 := by omega
    have h1 : g.nodes.card - i = 1 := by omega
    rw [hieq, pyCount_levelNodes_last hwf hconn (by omega)]
    have h2 : g.nodes.card - (g.nodes.card - 1) = 1 := by omega
    rw [h2, stirlingFn_one g.nodes.card (by omega)]
  · have hi2 : i + 2 ≤ g.nodes.card := hmid
    apply le_trans ?_ (card_partitionsOfCard_le g.nodes (g.nodes.card - i))
    unfold pyCount
    apply Finset.card_le_card_of_injOn endpointsOf
    · intro E hE
      exact (level_image_elem_spec hwf hconn hi2 hE).1
    · intro E₁ hE₁ E₂ hE₂ heq
      have h1 := (level_image_elem_spec hwf hconn hi2 (Finset.mem_coe.mp hE₁)).2
      have h2 := (level_image_elem_spec hwf hconn hi2 (Finset.mem_coe.mp hE₂)).2
      rw [h1, h2, heq]

/-! ### C7 lower bound: at least `C(n-1, i)` partitions at level `i` -/

/-- The vertices spanned after processing a list of growth edges from `v0`. -/
def spannedBy (v0 : ℕ) (es : List (ℕ × ℕ)) : Finset ℕ :=
  insert v0 (es.map Prod.snd).toFinset

/-- A spanning-tree growth order for the connected graph `g`: each edge connects
an already-spanned vertex (`.1`) to a fresh vertex (`.2`), and at the end all
vertices are spanned.  Edges may be recorded in either orientation of a `g`
edge. -/
structure GrowthSeq (g : InputGraph) (v0 : ℕ) (es : List (ℕ × ℕ)) : Prop where
  v0_mem : v0 ∈ g.nodes
  edge_mem : ∀ i (h : i < es.length),
    es.get ⟨i, h⟩ ∈ g.edges ∨ ((es.get ⟨i, h⟩).2, (es.get ⟨i, h⟩).1) ∈ g.edges
  src : ∀ i (h : i < es.length), (es.get ⟨i, h⟩).1 ∈ spannedBy v0 (es.take i)
  fresh : ∀ i (h : i < es.length), (es.get ⟨i, h⟩).2 ∉ spannedBy v0 (es.take i)
  total : spannedBy v0 es = g.nodes

theorem spannedBy_take_mono (v0 : ℕ) (es : List (ℕ × ℕ)) {i j : ℕ} (hij : i ≤ j) :
    spannedBy v0 (es.take i) ⊆ spannedBy v0 (es.take j) := by
  intro a ha
  unfold spannedBy at ha ⊢
  rcases Finset.mem_insert.mp ha with h | h
  · exact Finset.mem_insert.mpr (Or.inl h)
  · rw [List.mem_toFinset, List.mem_map] at h
    obtain ⟨e, he, hea⟩ := h
    refine Finset.mem_insert.mpr (Or.inr ?_)
    rw [List.mem_toFinset, List.mem_map]
    refine ⟨e, ?_, hea⟩
    have : es.take i = (es.take j).take i := by
      rw [List.take_take, min_eq_left hij]
    rw [this] at he
    exact List.take_subset i (es.take j) he

theorem spannedBy_subset (v0 : ℕ) (es : List (ℕ × ℕ)) (i : ℕ) :
    spannedBy v0 (es.take i) ⊆ spannedBy v0 es := by
  intro a ha
  have h := spannedBy_take_mono v0 es (le_refl (max i es.length))
  have h1 : spannedBy v0 (es.take i) ⊆ spannedBy v0 (es.take es.length) := by
    rcases le_or_lt i es.length with h' | h'
    · exact spannedBy_take_mono v0 es h'
    · rw [List.take_of_length_le (le_of_lt h')]
      rw [List.take_length]
    
  rw [List.take_length] at h1
  exact h1 ha

theorem snd_mem_spannedBy {v0 : ℕ} {es : List (ℕ × ℕ)} {i : ℕ} (h : i < es.length) :
    (es.get ⟨i, h⟩).2 ∈ spannedBy v0 (es.take (i + 1)) := by
  unfold spannedBy
  refine Finset.mem_insert.mpr (Or.inr ?_)
  rw [List.mem_toFinset, List.mem_map]
  refine ⟨es.get ⟨i, h⟩, ?_, rfl⟩
  rw [List.take_succ]
  refine List.mem_append.mpr (Or.inr ?_)
  rw [List.getElem?_eq_getElem h]
  exact List.mem_singleton.mpr rfl

theorem spannedBy_card {v0 : ℕ} {es : List (ℕ × ℕ)}
    (hfresh : ∀ i (h : i < es.length), (es.get ⟨i, h⟩).2 ∉ spannedBy v0 (es.take i)) :
    (spannedBy v0 es).card = es.length + 1 := by
  have hnodup : (es.map Prod.snd).Nodup := by
    rw [List.nodup_iff_injective_get]
    intro a b hab
    by_contra hne
    rcases lt_or_gt_of_ne (fun hc => hne (Fin.ext hc) : (a : ℕ) ≠ b) with h | h
    · -- a < b : snd at a is spanned before b, contradicting freshness at b
      have hb : (b : ℕ) < es.length := by
        have := b.isLt
        simpa using this
      have ha : (a : ℕ) < es.length := by
        have := a.isLt
        simpa using this
      apply hfresh b hb
      have hmem : (es.get ⟨a, ha⟩).2 ∈ spannedBy v0 (es.take b) := by
        have h1 : (es.get ⟨a, ha⟩).2 ∈ spannedBy v0 (es.take (a + 1)) :=
          snd_mem_spannedBy ha
        exact spannedBy_take_mono v0 es (by omega) h1
      have hget : (es.map Prod.snd).get a = (es.get ⟨a, ha⟩).2 := by
        simp [List.getElem_map]
      have hget' : (es.map Prod.snd).get b = (es.get ⟨b, hb⟩).2 := by
        simp [List.getElem_map]
      rw [hget, hget'] at hab
      rw [← hab]
      exact hmem
    · have hb : (b : ℕ) < es.length := by
        have := b.isLt
        simpa using this
      have ha : (a : ℕ) < es.length := by
        have := a.isLt
        simpa using this
      apply hfresh a ha
      have h1 : (es.get ⟨b, hb⟩).2 ∈ spannedBy v0 (es.take (b + 1)) :=
        snd_mem_spannedBy hb
      have hmem : (es.get ⟨b, hb⟩).2 ∈ spannedBy v0 (es.take a) :=
        spannedBy_take_mono v0 es (by omega) h1
      have hget : (es.map Prod.snd).get a = (es.get ⟨a, ha⟩).2 := by
        simp [List.getElem_map]
      have hget' : (es.map Prod.snd).get b = (es.get ⟨b, hb⟩).2 := by
        simp [List.getElem_map]
      rw [hget, hget'] at hab
      rw [hab]
      exact hmem
  have hv0 : v0 ∉ (es.map Prod.snd).toFinset := by
    rw [List.mem_toFinset]
    intro hv
    rw [List.mem_iff_get] at hv
    obtain ⟨i, hi⟩ := hv
    have hilen : (i : ℕ) < es.length := by
      have := i.isLt
      simpa using this
    apply hfresh i hilen
    have hget : (es.map Prod.snd).get i = (es.get ⟨i, hilen⟩).2 := by
      simp [List.getElem_map]
    rw [hget] at hi
    rw [hi]
    exact Finset.mem_insert_self v0 _
  unfold spannedBy
  rw [Finset.card_insert_of_not_mem hv0, List.card_toFinset, List.dedup_eq_self.mpr hnodup,
    List.length_map]

/-- The growth conditions on a prefix of a growth order, before all vertices are
spanned. -/
def PartialGrowth (g : InputGraph) (v0 : ℕ) (es : List (ℕ × ℕ)) : Prop :=
  (∀ i (h : i < es.length),
    es.get ⟨i, h⟩ ∈ g.edges ∨ ((es.get ⟨i, h⟩).2, (es.get ⟨i, h⟩).1) ∈ g.edges) ∧
  (∀ i (h : i < es.length), (es.get ⟨i, h⟩).1 ∈ spannedBy v0 (es.take i)) ∧
  (∀ i (h : i < es.length), (es.get ⟨i, h⟩).2 ∉ spannedBy v0 (es.take i)) ∧
  spannedBy v0 es ⊆ g.nodes

theorem spannedBy_snoc (v0 : ℕ) (es : List (ℕ × ℕ)) (d : ℕ × ℕ) :
    spannedBy v0 (es ++ [d]) = insert d.2 (spannedBy v0 es) := by
  unfold spannedBy
  rw [List.map_append, List.toFinset_append]
  ext a
  simp only [Finset.mem_insert, Finset.mem_union, List.mem_toFinset, List.map_cons,
    List.map_nil, List.toFinset_cons, List.toFinset_nil, insert_emptyc_eq,
    Finset.mem_singleton]
  tauto

theorem partialGrowth_snoc {g : InputGraph} {v0 : ℕ} {es : List (ℕ × ℕ)}
    (hp : PartialGrowth g v0 es) {d : ℕ × ℕ}
    (hd : d ∈ g.edges ∨ (d.2, d.1) ∈ g.edges) (hd1 : d.1 ∈ spannedBy v0 es)
    (hd2 : d.2 ∉ spannedBy v0 es) (hd2n : d.2 ∈ g.nodes) :
    PartialGrowth g v0 (es ++ [d]) := by
  obtain ⟨hmem, hsrc, hfresh, hsub⟩ := hp
  have hlen : (es ++ [d]).length = es.length + 1 := by simp
  have htake : ∀ i, i ≤ es.length → (es ++ [d]).take i = es.take i := by
    intro i hi
    exact List.take_append_of_le_length hi
  have hget_lt : ∀ i (h : i < es.length),
      (es ++ [d]).get ⟨i, by simp; omega⟩ = es.get ⟨i, h⟩ := by
    intro i h
    exact List.getElem_append_left h
  have hget_last : (es ++ [d]).get ⟨es.length, by simp⟩ = d := by
    simp
  refine ⟨?_, ?_, ?_, ?_⟩
  · intro i h
    rcases lt_or_ge i es.length with h' | h'
    · rw [show ((es ++ [d]).get ⟨i, h⟩) = es.get ⟨i, h'⟩ from hget_lt i h']
      exact hmem i h'
    · have hieq : i = es.length := by
        rw [hlen] at h
        omega
      have hgi : (es ++ [d]).get ⟨i, h⟩ = d := by
        subst hieq
        simp
      rw [hgi]
      exact hd
  · intro i h
    rcases lt_or_ge i es.length with h' | h'
    · rw [show ((es ++ [d]).get ⟨i, h⟩) = es.get ⟨i, h'⟩ from hget_lt i h',
        htake i (le_of_lt h')]
      exact hsrc i h'
    · have hieq : i = es.length := by
        rw [hlen] at h
        omega
      have hgi : (es ++ [d]).get ⟨i, h⟩ = d := by
        subst hieq
        simp
      rw [hgi, htake i (by omega), hieq, List.take_length]
      exact hd1
  · intro i h
    rcases lt_or_ge i es.length with h' | h'
    · rw [show ((es ++ [d]).get ⟨i, h⟩) = es.get ⟨i, h'⟩ from hget_lt i h',
        htake i (le_of_lt h')]
      exact hfresh i h'
    · have hieq : i = es.length := by
        rw [hlen] at h
        omega
      have hgi : (es ++ [d]).get ⟨i, h⟩ = d := by
        subst hieq
        simp
      rw [hgi, htake i (by omega), hieq, List.take_length]
      exact hd2
  · rw [spannedBy_snoc]
    intro a ha
    rcases Finset.mem_insert.mp ha with h | h
    · exact h ▸ hd2n
    · exact hsub h

theorem exists_growthSeq {g : InputGraph} (hwf : g.WF) (hconn : g.Conn) :
    ∃ v0 es, GrowthSeq g v0 es ∧ es.length + 1 = g.nodes.card := by
  obtain ⟨v0, hv0⟩ := hconn.1
  have hn1 : 1 ≤ g.nodes.card := Finset.card_pos.mpr ⟨v0, hv0⟩
  have key : ∀ k, k + 1 ≤ g.nodes.card →
      ∃ es : List (ℕ × ℕ), es.length = k ∧ PartialGrowth g v0 es := by
    intro k
    induction k with
    | zero =>
      intro _
      refine ⟨[], rfl, ?_, ?_, ?_, ?_⟩
      · intro i h
        exact absurd h (by simp)
      · intro i h
        exact absurd h (by simp)
      · intro i h
        exact absurd h (by simp)
      · intro a ha
        unfold spannedBy at ha
        simp only [List.map_nil, List.toFinset_nil, Finset.mem_insert,
          Finset.not_mem_empty, or_false] at ha
        exact ha ▸ hv0
    | succ k ih =>
      intro hk
      obtain ⟨es, hlen, hpg⟩ := ih (by omega)
      have hcard : (spannedBy v0 es).card = k + 1 := by
        rw [spannedBy_card hpg.2.2.1, hlen]
      have hne : spannedBy v0 es ≠ g.nodes := by
        intro hc
        rw [hc] at hcard
        omega
      have hnonempty : (spannedBy v0 es).Nonempty := ⟨v0, Finset.mem_insert_self _ _⟩
      obtain ⟨e, he, hcase⟩ := hconn.2 (spannedBy v0 es)
        (Finset.mem_powerset.mpr hpg.2.2.2) hnonempty hne
      rcases hcase with ⟨h1, h2⟩ | ⟨h1, h2⟩
      · rw [Finset.mem_sdiff] at h2
        refine ⟨es ++ [(e.1, e.2)], by simp [hlen], ?_⟩
        exact partialGrowth_snoc hpg (Or.inl he) h1 h2.2 h2.1
      · rw [Finset.mem_sdiff] at h2
        refine ⟨es ++ [(e.2, e.1)], by simp [hlen], ?_⟩
        exact partialGrowth_snoc hpg (Or.inr he) h1 h2.2 h2.1
  obtain ⟨es, hlen, hpg⟩ := key (g.nodes.card - 1) (by omega)
  have hcard : (spannedBy v0 es).card = g.nodes.card := by
    rw [spannedBy_card hpg.2.2.1, hlen]
    omega
  have htotal : spannedBy v0 es = g.nodes :=
    Finset.eq_of_subset_of_card_le hpg.2.2.2 (by omega)
  exact ⟨v0, es, ⟨hv0, hpg.1, hpg.2.1, hpg.2.2.1, htotal⟩, by omega⟩

/-- The all-singletons partition (the root's vertex set). -/
def discreteP (g : InputGraph) : Finset Label := g.nodes.image natLabel

/-- Merge the blocks containing the two endpoints of `e` inside the partition
`P` (they are distinct blocks whenever this is invoked). -/
def procMerge (P : Finset Label) (e : ℕ × ℕ) : Finset Label :=
  insert ((P.filter (fun B => e.1 ∈ B ∨ e.2 ∈ B)).sup id)
    (P.filter (fun B => e.1 ∉ B ∧ e.2 ∉ B))

/-- Process a list of (edge, selected) pairs left to right, merging on the
selected ones. -/
def growthRun (P : Finset Label) : List ((ℕ × ℕ) × Bool) → Finset Label
  | [] => P
  | eb :: rest => growthRun (if eb.2 then procMerge P eb.1 else P) rest

/-- Tag each growth edge with whether its index belongs to `S`. -/
def selList (es : List (ℕ × ℕ)) (S : Finset ℕ) : List ((ℕ × ℕ) × Bool) :=
  es.zip ((List.range es.length).map (fun j => decide (j ∈ S)))

/-- The partition obtained by merging exactly the growth edges whose index lies
in `S`. -/
def growthPartition (g : InputGraph) (es : List (ℕ × ℕ)) (S : Finset ℕ) : Finset Label :=
  growthRun (discreteP g) (selList es S)

theorem growthRun_append (P : Finset Label) (l₁ l₂ : List ((ℕ × ℕ) × Bool)) :
    growthRun P (l₁ ++ l₂) = growthRun (growthRun P l₁) l₂ := by
  induction l₁ generalizing P with
  | nil => rfl
  | cons eb rest ih =>
    show growthRun (if eb.2 then procMerge P eb.1 else P) (rest ++ l₂) = _
    rw [ih]
    rfl

theorem selList_length (es : List (ℕ × ℕ)) (S : Finset ℕ) :
    (selList es S).length = es.length := by
  unfold selList
  rw [List.length_zip, List.length_map, List.length_range, min_self]

theorem selList_get {es : List (ℕ × ℕ)} {S : Finset ℕ} {j : ℕ} (hj : j < es.length) :
    (selList es S).get ⟨j, by rw [selList_length]; exact hj⟩ =
      (es.get ⟨j, hj⟩, decide (j ∈ S)) := by
  unfold selList
  rw [List.get_eq_getElem, List.getElem_zip]
  congr 1
  rw [List.getElem_map, List.getElem_range]

theorem selList_take_succ {es : List (ℕ × ℕ)} {S : Finset ℕ} {j : ℕ} (hj : j < es.length) :
    (selList es S).take (j + 1) =
      (selList es S).take j ++ [(es.get ⟨j, hj⟩, decide (j ∈ S))] := by
  have hjlen : j < (selList es S).length := by
    rw [selList_length]
    exact hj
  rw [List.take_succ, List.getElem?_eq_getElem hjlen]
  congr 1
  show [(selList es S).get ⟨j, hjlen⟩] = _
  rw [selList_get hj]

theorem procMerge_spec {g : InputGraph} {P : Finset Label} (hpart : IsPart g P)
    {u v : ℕ} {A : Label} (hA : A ∈ P) (huA : u ∈ A) (hvP : natLabel v ∈ P)
    (hvnA : v ∉ A) :
    procMerge P (u, v) = insert (A ∪ natLabel v) (P \ {A, natLabel v}) := by
  have hvv : v ∈ natLabel v := Finset.mem_singleton_self v
  have hfilter1 : P.filter (fun B => u ∈ B ∨ v ∈ B) = {A, natLabel v} := by
    apply Finset.Subset.antisymm
    · intro B hB
      rw [Finset.mem_filter] at hB
      obtain ⟨hBP, hcase⟩ := hB
      rcases hcase with h | h
      · exact Finset.mem_insert.mpr (Or.inl (hpart.blocks_disj B hBP A hA u h huA))
      · exact Finset.mem_insert.mpr (Or.inr (Finset.mem_singleton.mpr
          (hpart.blocks_disj B hBP (natLabel v) hvP v h hvv)))
    · intro B hB
      rw [Finset.mem_filter]
      rcases Finset.mem_insert.mp hB with h | h
      · exact ⟨h ▸ hA, Or.inl (h ▸ huA)⟩
      · rw [Finset.mem_singleton.mp h]
        exact ⟨hvP, Or.inr hvv⟩
  have hsup : ({A, natLabel v} : Finset Label).sup id = A ∪ natLabel v := by
    rw [Finset.sup_insert, Finset.sup_singleton]
    rfl
  have hfilter2 : P.filter (fun B => u ∉ B ∧ v ∉ B) = P \ {A, natLabel v} := by
    ext B
    rw [Finset.mem_filter, Finset.mem_sdiff, Finset.mem_insert, Finset.mem_singleton]
    constructor
    · rintro ⟨hBP, hu, hv⟩
      refine ⟨hBP, ?_⟩
      rintro (h | h)
      · exact hu (h ▸ huA)
      · exact hv (h ▸ hvv)
    · rintro ⟨hBP, hne⟩
      refine ⟨hBP, ?_, ?_⟩
      · intro hu
        exact hne (Or.inl (hpart.blocks_disj B hBP A hA u hu huA))
      · intro hv
        exact hne (Or.inr (hpart.blocks_disj B hBP (natLabel v) hvP v hv hvv))
  unfold procMerge
  rw [hfilter1, hsup, hfilter2]

theorem inter_range_succ_card_of_mem {S : Finset ℕ} {j : ℕ} (h : j ∈ S) :
    (S ∩ Finset.range (j + 1)).card = (S ∩ Finset.range j).card + 1 := by
  rw [Finset.range_succ, Finset.inter_comm, Finset.insert_inter_of_mem h,
    Finset.inter_comm, Finset.card_insert_of_not_mem]
  intro hc
  rw [Finset.mem_inter] at hc
  exact absurd (Finset.mem_range.mp hc.2) (lt_irrefl j)

theorem inter_range_succ_card_of_not_mem {S : Finset ℕ} {j : ℕ} (h : j ∉ S) :
    (S ∩ Finset.range (j + 1)).card = (S ∩ Finset.range j).card := by
  rw [Finset.range_succ, Finset.inter_comm, Finset.insert_inter_of_not_mem h,
    Finset.inter_comm]

/-- The partition reached after processing the first `j` growth edges. -/
def growthRunTake (g : InputGraph) (es : List (ℕ × ℕ)) (S : Finset ℕ) (j : ℕ) : Finset Label :=
  growthRun (discreteP g) ((selList es S).take j)

theorem growthRunTake_zero (g : InputGraph) (es : List (ℕ × ℕ)) (S : Finset ℕ) :
    growthRunTake g es S 0 = discreteP g := rfl

theorem growthRunTake_length (g : InputGraph) (es : List (ℕ × ℕ)) (S : Finset ℕ) :
    growthRunTake g es S es.length = growthPartition g es S := by
  unfold growthRunTake growthPartition
  rw [List.take_of_length_le (le_of_eq (selList_length es S))]

theorem growthRunTake_succ {g : InputGraph} {es : List (ℕ × ℕ)} {S : Finset ℕ} {j : ℕ}
    (hj : j < es.length) :
    growthRunTake g es S (j + 1) =
      (if j ∈ S then procMerge (growthRunTake g es S j) (es.get ⟨j, hj⟩)
       else growthRunTake g es S j) := by
  unfold growthRunTake
  rw [selList_take_succ hj, growthRun_append]
  show growthRun (if decide (j ∈ S) then _ else _) [] = _
  by_cases hjS : j ∈ S
  · rw [if_pos hjS, decide_eq_true hjS, if_pos rfl]
    rfl
  · rw [if_neg hjS, decide_eq_false hjS]
    rfl

theorem growthEdge_nodes {g : InputGraph} {v0 : ℕ} {es : List (ℕ × ℕ)} (hwf : g.WF)
    (hgs : GrowthSeq g v0 es) {i : ℕ} (hi : i < es.length) :
    (es.get ⟨i, hi⟩).1 ∈ g.nodes ∧ (es.get ⟨i, hi⟩).2 ∈ g.nodes := by
  rcases hgs.edge_mem i hi with h | h
  · exact ⟨(hwf _ h).2.1, (hwf _ h).2.2⟩
  · exact ⟨(hwf _ h).2.2, (hwf _ h).2.1⟩

theorem growthEdge_crossing {g : InputGraph} {v0 : ℕ} {es : List (ℕ × ℕ)}
    (hgs : GrowthSeq g v0 es) {i : ℕ} (hi : i < es.length) {A B : Label}
    (hA : (es.get ⟨i, hi⟩).1 ∈ A) (hB : (es.get ⟨i, hi⟩).2 ∈ B) : Crossing g A B := by
  rcases hgs.edge_mem i hi with h | h
  · exact ⟨_, h, Or.inl ⟨hA, hB⟩⟩
  · exact ⟨_, h, Or.inr ⟨hB, hA⟩⟩

theorem mem_natLabel {a b : ℕ} : a ∈ natLabel b ↔ a = b := Finset.mem_singleton

/-- The running invariant of the merge process: after the first `j` growth edges
are processed, the current block family is the vertex set of a search-space node
at the level counting the selected indices so far; every still-unspanned vertex
is a singleton block; an unselected edge's endpoints never end up in one block;
a selected edge's endpoints share a block. -/
theorem growth_invariant {g : InputGraph} (hwf : g.WF) (hconn : g.Conn)
    {v0 : ℕ} {es : List (ℕ × ℕ)} (hgs : GrowthSeq g v0 es) (S : Finset ℕ) :
    ∀ j, j ≤ es.length →
      (∃ nd ∈ levelNodes g ((S ∩ Finset.range j).card),
          nd.graph.nodes = growthRunTake g es S j) ∧
      (∀ w ∈ g.nodes, w ∉ spannedBy v0 (es.take j) →
          natLabel w ∈ growthRunTake g es S j) ∧
      (∀ i, ∀ hi : i < es.length, i < j → i ∉ S →
          ∀ B ∈ growthRunTake g es S j, (es.get ⟨i, hi⟩).2 ∈ B →
          ∀ a ∈ B, a ∉ spannedBy v0 (es.take i)) ∧
      (∀ i, ∀ hi : i < es.length, i < j → i ∈ S →
          ∃ B ∈ growthRunTake g es S j,
            (es.get ⟨i, hi⟩).1 ∈ B ∧ (es.get ⟨i, hi⟩).2 ∈ B) := by
  intro j
  induction j with
  | zero =>
    intro _
    refine ⟨⟨rootNode g, ?_, ?_⟩, ?_, ?_, ?_⟩
    · rw [Finset.range_zero, Finset.inter_empty, Finset.card_empty]
      exact Finset.mem_singleton_self _
    · rw [growthRunTake_zero, rootNode_nodes hwf]
      rfl
    · intro w hw _
      rw [growthRunTake_zero]
      exact Finset.mem_image.mpr ⟨w, hw, rfl⟩
    · intro i hi hij
      exact absurd hij (Nat.not_lt_zero i)
    · intro i hi hij
      exact absurd hij (Nat.not_lt_zero i)
  | succ j ih =>
    intro hj1
    have hj : j < es.length := by omega
    obtain ⟨⟨nd, hnd, hndP⟩, hb, hd, he⟩ := ih (by omega)
    have hndinv := (levelNodes_spec hwf hconn _ nd hnd).1
    have hPart : IsPart g (growthRunTake g es S j) := hndP ▸ hndinv.part
    by_cases hjS : j ∈ S
    · -- merge step
      have hrun : growthRunTake g es S (j + 1) =
          procMerge (growthRunTake g es S j) (es.get ⟨j, hj⟩) := by
        rw [growthRunTake_succ hj, if_pos hjS]
      have hu_sp : (es.get ⟨j, hj⟩).1 ∈ spannedBy v0 (es.take j) := hgs.src j hj
      have hv_sp : (es.get ⟨j, hj⟩).2 ∉ spannedBy v0 (es.take j) := hgs.fresh j hj
      obtain ⟨hu_n, hv_n⟩ := growthEdge_nodes hwf hgs hj
      obtain ⟨A, hA, huA⟩ := hPart.blocks_total _ hu_n
      have hvP : natLabel (es.get ⟨j, hj⟩).2 ∈ growthRunTake g es S j := hb _ hv_n hv_sp
      have huv_ne : (es.get ⟨j, hj⟩).1 ≠ (es.get ⟨j, hj⟩).2 := fun hc => hv_sp (hc ▸ hu_sp)
      have hvnA : (es.get ⟨j, hj⟩).2 ∉ A := by
        intro hvA
        have hAv : A = natLabel (es.get ⟨j, hj⟩).2 :=
          hPart.blocks_disj A hA _ hvP _ hvA (Finset.mem_singleton_self _)
        rw [hAv, mem_natLabel] at huA
        exact huv_ne huA
      have hproc : procMerge (growthRunTake g es S j) (es.get ⟨j, hj⟩) =
          insert (A ∪ natLabel (es.get ⟨j, hj⟩).2)
            (growthRunTake g es S j \ {A, natLabel (es.get ⟨j, hj⟩).2}) :=
        procMerge_spec hPart hA huA hvP hvnA
      have hAne : A ≠ natLabel (es.get ⟨j, hj⟩).2 := by
        intro hc
        exact hvnA (hc ▸ Finset.mem_singleton_self _)
      have hcr : Crossing g A (natLabel (es.get ⟨j, hj⟩).2) :=
        growthEdge_crossing hgs hj huA (Finset.mem_singleton_self _)
      have hAmem : A ∈ nd.graph.nodes := by
        rw [hndP]
        exact hA
      have hvmem : natLabel (es.get ⟨j, hj⟩).2 ∈ nd.graph.nodes := by
        rw [hndP]
        exact hvP
      have hε : normPair A (natLabel (es.get ⟨j, hj⟩).2) ∈ nd.graph.edges := by
        rw [hndinv.edges_eq]
        exact mem_quotEdges.mpr ⟨A, _, hAmem, hvmem, hAne, hcr, rfl⟩
      have hchild : nd.expandOne (normPair A (natLabel (es.get ⟨j, hj⟩).2)) ∈
          levelNodes g ((S ∩ Finset.range j).card + 1) := by
        rw [levelNodes, Finset.mem_biUnion]
        exact ⟨nd, hnd, mem_expandChildren.mpr ⟨_, hε, rfl⟩⟩
      have hchildnodes :
          (nd.expandOne (normPair A (natLabel (es.get ⟨j, hj⟩).2))).graph.nodes =
            insert (A ∪ natLabel (es.get ⟨j, hj⟩).2)
              (growthRunTake g es S j \ {A, natLabel (es.get ⟨j, hj⟩).2}) := by
        rw [expandOne_nodes_eq hconn hndinv hε]
        rcases normPair_fst_snd A (natLabel (es.get ⟨j, hj⟩).2) with ⟨h1, h2⟩ | ⟨h1, h2⟩
        · rw [h1, h2, hndP]
        · rw [h1, h2, hndP, Finset.union_comm, Finset.pair_comm]
      refine ⟨⟨nd.expandOne (normPair A (natLabel (es.get ⟨j, hj⟩).2)), ?_, ?_⟩, ?_, ?_, ?_⟩
      · rw [inter_range_succ_card_of_mem hjS]
        exact hchild
      · rw [hrun, hproc, hchildnodes]
      · -- singletons of unspanned vertices survive
        intro w hw hwsp
        have hwspj : w ∉ spannedBy v0 (es.take j) :=
          fun hc => hwsp (spannedBy_take_mono v0 es (Nat.le_succ j) hc)
        have hwP : natLabel w ∈ growthRunTake g es S j := hb w hw hwspj
        have hwv : w ≠ (es.get ⟨j, hj⟩).2 := by
          intro hc
          exact hwsp (hc ▸ snd_mem_spannedBy hj)
        have hwA : natLabel w ≠ A := by
          intro hc
          rw [← hc, mem_natLabel] at huA
          exact hwspj (huA ▸ hu_sp)
        rw [hrun, hproc]
        refine Finset.mem_insert.mpr (Or.inr ?_)
        rw [Finset.mem_sdiff]
        refine ⟨hwP, ?_⟩
        rw [Finset.mem_insert, Finset.mem_singleton]
        rintro (h | h)
        · exact hwA h
        · exact hwv (Finset.singleton_inj.mp h)
      · -- unselected edges stay separated
        intro i hi hij hiS B hB hvB a haB
        rcases Nat.lt_succ_iff_lt_or_eq.mp hij with hij' | hij'
        · rw [hrun, hproc] at hB
          rcases Finset.mem_insert.mp hB with hBeq | hBm
          · have hvi_sp : (es.get ⟨i, hi⟩).2 ∈ spannedBy v0 (es.take j) :=
              spannedBy_take_mono v0 es hij' (snd_mem_spannedBy hi)
            have hviA : (es.get ⟨i, hi⟩).2 ∈ A := by
              rw [hBeq, Finset.mem_union] at hvB
              rcases hvB with h | h
              · exact h
              · rw [mem_natLabel] at h
                exact absurd (h ▸ hvi_sp) hv_sp
            have hrec := hd i hi hij' hiS A hA hviA
            subst hBeq
            rcases Finset.mem_union.mp haB with h | h
            · exact hrec a h
            · rw [mem_natLabel] at h
              subst h
              exact fun hc => hv_sp (spannedBy_take_mono v0 es (le_of_lt hij') hc)
          · exact hd i hi hij' hiS B (Finset.mem_sdiff.mp hBm).1 hvB a haB
        · subst hij'
          exact absurd hjS hiS
      · -- selected edges share a block
        intro i hi hij hiS
        rcases Nat.lt_succ_iff_lt_or_eq.mp hij with hij' | hij'
        · obtain ⟨B, hB, hui, hvi⟩ := he i hi hij' hiS
          by_cases hBA : B = A
          · refine ⟨A ∪ natLabel (es.get ⟨j, hj⟩).2, ?_, ?_, ?_⟩
            · rw [hrun, hproc]
              exact Finset.mem_insert_self _ _
            · exact Finset.mem_union_left _ (hBA ▸ hui)
            · exact Finset.mem_union_left _ (hBA ▸ hvi)
          · by_cases hBv : B = natLabel (es.get ⟨j, hj⟩).2
            · exfalso
              rw [hBv, mem_natLabel] at hui
              exact hv_sp
                (hui ▸ spannedBy_take_mono v0 es (le_of_lt hij') (hgs.src i hi))
            · refine ⟨B, ?_, hui, hvi⟩
              rw [hrun, hproc]
              refine Finset.mem_insert.mpr (Or.inr ?_)
              rw [Finset.mem_sdiff, Finset.mem_insert, Finset.mem_singleton]
              exact ⟨hB, fun hc => hc.elim hBA hBv⟩
        · subst hij'
          refine ⟨A ∪ natLabel (es.get ⟨i, hi⟩).2, ?_, ?_, ?_⟩
          · rw [hrun, hproc]
            exact Finset.mem_insert_self _ _
          · exact Finset.mem_union_left _ huA
          · exact Finset.mem_union_right _ (Finset.mem_singleton_self _)
    · -- skip step
      have hrun : growthRunTake g es S (j + 1) = growthRunTake g es S j := by
        rw [growthRunTake_succ hj, if_neg hjS]
      refine ⟨⟨nd, ?_, ?_⟩, ?_, ?_, ?_⟩
      · rw [inter_range_succ_card_of_not_mem hjS]
        exact hnd
      · rw [hrun]
        exact hndP
      · intro w hw hwsp
        rw [hrun]
        exact hb w hw (fun hc => hwsp (spannedBy_take_mono v0 es (Nat.le_succ j) hc))
      · intro i hi hij hiS B hB hvB a haB
        rw [hrun] at hB
        rcases Nat.lt_succ_iff_lt_or_eq.mp hij with hij' | hij'
        · exact hd i hi hij' hiS B hB hvB a haB
        · subst hij'
          have hv_sp : (es.get ⟨i, hi⟩).2 ∉ spannedBy v0 (es.take i) := hgs.fresh i hi
          obtain ⟨_, hv_n⟩ := growthEdge_nodes hwf hgs hi
          have hvP : natLabel (es.get ⟨i, hi⟩).2 ∈ growthRunTake g es S i := hb _ hv_n hv_sp
          have hBeq : B = natLabel (es.get ⟨i, hi⟩).2 :=
            hPart.blocks_disj B hB _ hvP _ hvB (Finset.mem_singleton_self _)
          rw [hBeq, mem_natLabel] at haB
          subst haB
          exact hv_sp
      · intro i hi hij hiS
        rw [hrun]
        rcases Nat.lt_succ_iff_lt_or_eq.mp hij with hij' | hij'
        · exact he i hi hij' hiS
        · subst hij'
          exact absurd hiS hjS

theorem growthPartition_node {g : InputGraph} (hwf : g.WF) (hconn : g.Conn)
    {v0 : ℕ} {es : List (ℕ × ℕ)} (hgs : GrowthSeq g v0 es) {S : Finset ℕ}
    (hS : S ⊆ Finset.range es.length) :
    ∃ nd ∈ levelNodes g S.card, nd.graph.nodes = growthPartition g es S := by
  obtain ⟨⟨nd, hnd, hndP⟩, _, _, _⟩ :=
    growth_invariant hwf hconn hgs S es.length (le_refl _)
  rw [Finset.inter_eq_left.mpr hS] at hnd
  rw [growthRunTake_length] at hndP
  exact ⟨nd, hnd, hndP⟩

/-- An index is selected exactly when the final partition puts the two endpoints
of its growth edge into one block: the selected set is recoverable from the
partition. -/
theorem mem_iff_shared_block {g : InputGraph} (hwf : g.WF) (hconn : g.Conn)
    {v0 : ℕ} {es : List (ℕ × ℕ)} (hgs : GrowthSeq g v0 es) (S : Finset ℕ) {i : ℕ}
    (hi : i < es.length) :
    i ∈ S ↔ ∃ B ∈ growthPartition g es S,
      (es.get ⟨i, hi⟩).1 ∈ B ∧ (es.get ⟨i, hi⟩).2 ∈ B := by
  obtain ⟨_, _, hd, he⟩ := growth_invariant hwf hconn hgs S es.length (le_refl _)
  rw [← growthRunTake_length g es S]
  constructor
  · intro hiS
    exact he i hi hi hiS
  · rintro ⟨B, hB, hu, hv⟩
    by_contra hiS
    exact hd i hi hi hiS B hB hv _ hu (hgs.src i hi)

theorem growthPartition_inj {g : InputGraph} (hwf : g.WF) (hconn : g.Conn)
    {v0 : ℕ} {es : List (ℕ × ℕ)} (hgs : GrowthSeq g v0 es)
    {S₁ S₂ : Finset ℕ} (h1 : S₁ ⊆ Finset.range es.length)
    (h2 : S₂ ⊆ Finset.range es.length)
    (heq : growthPartition g es S₁ = growthPartition g es S₂) : S₁ = S₂ := by
  ext i
  by_cases hi : i < es.length
  · rw [mem_iff_shared_block hwf hconn hgs S₁ hi,
      mem_iff_shared_block hwf hconn hgs S₂ hi, heq]
  · constructor <;> intro h
    · exact absurd (Finset.mem_range.mp (h1 h)) hi
    · exact absurd (Finset.mem_range.mp (h2 h)) hi

/-- The per-level count is at least the binomial coefficient `C(n - 1, i)` for
every non-final level: distinct selections of `i` growth edges yield distinct
quotient edge sets at level `i`. -/
theorem choose_le_pyCount {g : InputGraph} (hwf : g.WF) (hconn : g.Conn) {i : ℕ}
    (hi : i + 2 ≤ g.nodes.card) :
    Nat.choose (g.nodes.card - 1) i ≤ pyCount (levelNodes g i) := by
  obtain ⟨v0, es, hgs, hlen⟩ := exists_growthSeq hwf hconn
  have hlen' : es.length = g.nodes.card - 1 := by omega
  have hstep : ∀ S ∈ (Finset.range es.length).powersetCard i,
      ∃ nd ∈ levelNodes g i, nd.graph.nodes = growthPartition g es S ∧
        nd.graph.edges = quotEdges g (growthPartition g es S) ∧
        IsPart g (growthPartition g es S) ∧
        2 ≤ (growthPartition g es S).card := by
    intro S hS
    rw [Finset.mem_powersetCard] at hS
    obtain ⟨hSsub, hScard⟩ := hS
    obtain ⟨nd, hnd, hndP⟩ := growthPartition_node hwf hconn hgs hSsub
    rw [hScard] at hnd
    obtain ⟨hinv, hcard⟩ := levelNodes_spec hwf hconn i nd hnd
    refine ⟨nd, hnd, hndP, ?_, hndP ▸ hinv.part, ?_⟩
    · rw [hinv.edges_eq, hndP]
    · rw [← hndP]
      omega
  unfold pyCount
  rw [show Nat.choose (g.nodes.card - 1) i = (es.length).choose i by rw [hlen'],
    ← Finset.card_range es.length, ← Finset.card_powersetCard]
  apply Finset.card_le_card_of_injOn (fun S => quotEdges g (growthPartition g es S))
  · intro S hS
    obtain ⟨nd, hnd, _, hedges, _, _⟩ := hstep S hS
    exact Finset.mem_image.mpr ⟨nd, hnd, hedges⟩
  · intro S₁ hS₁ S₂ hS₂ heq
    obtain ⟨_, _, _, _, hpart1, hc1⟩ := hstep S₁ (Finset.mem_coe.mp hS₁)
    obtain ⟨_, _, _, _, hpart2, hc2⟩ := hstep S₂ (Finset.mem_coe.mp hS₂)
    have heq' : quotEdges g (growthPartition g es S₁) =
        quotEdges g (growthPartition g es S₂) := heq
    have hent : growthPartition g es S₁ = growthPartition g es S₂ := by
      rw [← endpointsOf_quotEdges_eq hconn hpart1 hc1,
        ← endpointsOf_quotEdges_eq hconn hpart2 hc2, heq']
    exact growthPartition_inj hwf hconn hgs
      (Finset.mem_powersetCard.mp (Finset.mem_coe.mp hS₁)).1
      (Finset.mem_powersetCard.mp (Finset.mem_coe.mp hS₂)).1 hent

theorem edges_empty_of_one_node {g : InputGraph} (hwf : g.WF) (h1 : g.nodes.card = 1) :
    g.edges = ∅ := by
  obtain ⟨a, ha⟩ := Finset.card_eq_one.mp h1
  rw [Finset.eq_empty_iff_forall_not_mem]
  intro e he
  obtain ⟨hne, h1m, h2m⟩ := hwf e he
  rw [ha, Finset.mem_singleton] at h1m h2m
  exact hne (h1m.trans h2m.symm)

theorem levelNodes_one_of_no_edges {g : InputGraph} (he : g.edges = ∅) :
    levelNodes g 1 = ∅ := by
  show ({rootNode g} : Finset SearchSpaceNode).biUnion SearchSpaceNode.expandChildren = ∅
  rw [Finset.singleton_biUnion]
  unfold SearchSpaceNode.expandChildren
  have hre : (rootNode g).graph.edges = ∅ := by
    show g.edges.image _ = ∅
    rw [he, Finset.image_empty]
  rw [hre, Finset.image_empty]

/-- `build` on a single-node graph: the loop body never runs, leaving exactly the
initial level and its empty expansion. -/
theorem build_spec_one {ss : SearchSpace} (hwf : ss.graph.WF)
    (h1 : ss.graph.nodes.card = 1) :
    ss.build = .ok { ss with levels := some [expectedLevel ss.graph ss.compressFlag 0 false,
                       expectedLevel ss.graph ss.compressFlag 1 true] } := by
  unfold SearchSpace.build
  have hpos : 0 < ss.graph.nodes.card := by omega
  have hinit : levelInit (some ss.graph) none = .ok (freshLevel ss.graph 0) := by
    unfold levelInit
    dsimp only
    rw [if_pos hpos]
    rfl
  rw [hinit]
  show (match (freshLevel ss.graph 0).expand with
    | .error e => Except.error e
    | .ok (firstExp, second) => _) = _
  rw [freshLevel_expand]
  show Except.ok _ = _
  rw [show (if ss.compressFlag then
        ({ freshLevel ss.graph 0 with hasNext := true } : SearchSpaceLevel).compress
      else { freshLevel ss.graph 0 with hasNext := true }) =
      expectedLevel ss.graph ss.compressFlag 0 false from
    freshLevel_step ss.graph ss.compressFlag 0]
  have hsecond : ({ level := (freshLevel ss.graph 0).level + 1,
                    nodes := some ((levelNodes ss.graph 0).biUnion SearchSpaceNode.expandChildren),
                    numRec := none,
                    hasNext := false } : SearchSpaceLevel) = freshLevel ss.graph 1 := rfl
  rw [hsecond]
  have hcond : ¬ 1 < (freshLevel ss.graph 1).numPartitions := by
    rw [freshLevel_numPartitions, levelNodes_one_of_no_edges (edges_empty_of_one_node hwf h1)]
    unfold pyCount
    rw [Finset.image_empty, Finset.card_empty]
    omega
  have hstop : buildLoop ss.compressFlag
      (ss.graph.nodes.card + ss.graph.edges.card + 2)
      [expectedLevel ss.graph ss.compressFlag 0 false] (freshLevel ss.graph 1) =
      ([expectedLevel ss.graph ss.compressFlag 0 false], freshLevel ss.graph 1) := by
    show buildLoop _ (ss.graph.nodes.card + ss.graph.edges.card + 1 + 1) _ _ = _
    rw [buildLoop, if_neg hcond]
  rw [hstop]
  have hlast : (if ss.compressFlag then (freshLevel ss.graph 1).compress
      else freshLevel ss.graph 1) = expectedLevel ss.graph ss.compressFlag 1 true := by
    cases ss.compressFlag <;> rfl
  rw [hlast]
  rfl

/-- The lower bound `binomial(n - 1, n - i - 1)` never exceeds the per-level
count, for every level index produced by the build of an `n`-node graph. -/
theorem pyCount_ge_binom {g : InputGraph} (hwf : g.WF) (hconn : g.Conn) {i : ℕ}
    (hi : i + 1 ≤ g.nodes.card) :
    binomialZ (g.nodes.card - 1) ((g.nodes.card : ℤ) - i - 1) ≤
      pyCount (levelNodes g i) := by
  have hn1 : 1 ≤ g.nodes.card := by omega
  have hknn : ¬ ((g.nodes.card : ℤ) - i - 1 < 0) := by omega
  rw [binomialZ, if_neg hknn]
  have htn : ((g.nodes.card : ℤ) - i - 1).toNat = g.nodes.card - 1 - i := by omega
  rw [htn, Nat.choose_symm (show i ≤ g.nodes.card - 1 by omega)]
  rcases lt_or_ge (i + 1) g.nodes.card with h | h
  · exact choose_le_pyCount hwf hconn (by omega)
  · have hieq : i = g.nodes.card - 1 := by omega
    rw [hieq, Nat.choose_self, pyCount_levelNodes_last hwf hconn hn1]

/-- C7: For every connected input graph and every level index `i` of its built
search space, the per-level exact count satisfies
`num_k_partitions_lb(i) ≤ num_partitions(i) ≤ num_k_partitions_ub(i)`, where the
upper bound is the Stirling number of the second kind `S(n, n-i)` and the lower
bound is `binomial(n-1, n-i-1)`. -/
theorem level_counts_within_bounds {ss : SearchSpace} (hwf : ss.graph.WF)
    (hconn : ss.graph.Conn) :
    ∃ ssb, ss.build = .ok ssb ∧ ∀ i < ssb.numLevels,
      ssb.numKPartitionsLB i ≤ ssb.numPartitionsAt i ∧
        ssb.numPartitionsAt i ≤ ssb.numKPartitionsUB i := by
  have hn1 : 1 ≤ ss.graph.nodes.card := Finset.card_pos.mpr hconn.1
  rcases le_or_lt 2 ss.graph.nodes.card with h2 | h2
  · refine ⟨_, build_spec hwf hconn h2, ?_⟩
    intro i hi
    have hi' : i < (builtLevels ss.graph ss.compressFlag).length := hi
    rw [builtLevels_length ss.graph ss.compressFlag (by omega)] at hi'
    have hNP : ((builtLevels ss.graph ss.compressFlag).getD i default).numPartitions =
        pyCount (levelNodes ss.graph i) := by
      rw [builtLevels_getD (by omega) hi', expectedLevel_numPartitions]
    constructor
    · show binomialZ (ss.graph.nodes.card - 1) ((ss.graph.nodes.card : ℤ) - i - 1) ≤
        ((builtLevels ss.graph ss.compressFlag).getD i default).numPartitions
      rw [hNP]
      exact pyCount_ge_binom hwf hconn (by omega)
    · show ((builtLevels ss.graph ss.compressFlag).getD i default).numPartitions ≤
        stirlingFn ss.graph.nodes.card (ss.graph.nodes.card - i)
      rw [hNP]
      exact pyCount_le_stirling hwf hconn (by omega)
  · have h1 : ss.graph.nodes.card = 1 := by omega
    refine ⟨_, build_spec_one hwf h1, ?_⟩
    intro i hi
    have hcz : pyCount (levelNodes ss.graph 1) = 0 := by
      rw [levelNodes_one_of_no_edges (edges_empty_of_one_node hwf h1)]
      unfold pyCount
      rw [Finset.image_empty, Finset.card_empty]
    have hi2 : i < 2 := hi
    interval_cases i
    · constructor
      · show binomialZ (ss.graph.nodes.card - 1) ((ss.graph.nodes.card : ℤ) - 0 - 1) ≤
          (expectedLevel ss.graph ss.compressFlag 0 false).numPartitions
        rw [expectedLevel_numPartitions, pyCount_levelNodes_zero, h1]
        decide
      · show (expectedLevel ss.graph ss.compressFlag 0 false).numPartitions ≤
          stirlingFn ss.graph.nodes.card (ss.graph.nodes.card - 0)
        rw [expectedLevel_numPartitions, pyCount_levelNodes_zero, h1]
        decide
    · constructor
      · show binomialZ (ss.graph.nodes.card - 1) ((ss.graph.nodes.card : ℤ) - 1 - 1) ≤
          (expectedLevel ss.graph ss.compressFlag 1 true).numPartitions
        rw [expectedLevel_numPartitions, hcz, h1]
        decide
      · show (expectedLevel ss.graph ss.compressFlag 1 true).numPartitions ≤
          stirlingFn ss.graph.nodes.card (ss.graph.nodes.card - 1)
        rw [expectedLevel_numPartitions, hcz, h1]
        decide

theorem level_counts_within_bounds_witness :
    (SearchSpace.make cycle4 false).graph.WF ∧
    (SearchSpace.make cycle4 false).graph.Conn ∧
    (∃ ssb, (SearchSpace.make cycle4 false).build = .ok ssb ∧ ∀ i < ssb.numLevels,
      ssb.numKPartitionsLB i ≤ ssb.numPartitionsAt i ∧
        ssb.numPartitionsAt i ≤ ssb.numKPartitionsUB i) :=
  ⟨by decide, by decide, level_counts_within_bounds (by decide) (by decide)⟩
